import Mathlib

/-!
Shallow embedding of the tree-constrained beam-search decoder of
`flccpsisrc/common/model_evaluation/beam_search/search.py` and of the
length-normalization used by `src/common/model_evaluation/evaluate_predictions.py`.

Scores are IEEE-754 floating point in the source; they are modelled by the
type `Psi.XF` below: a rational number, negative infinity, positive infinity,
or NaN.  Tensors are modelled as (rectangular) lists of lists.  The in-place
mutations of the Python code are modelled by explicit state passing: each
mutating method returns the new state, and `BeamSearch.step` additionally
returns the final contents of the caller-supplied `log_probs` tensor (which
the source mutates in place during masking).
-/

namespace Psi

/-- Model of an IEEE-754 double as used for the score tensors: NaN, the two
infinities, or a finite value (represented exactly as a rational). -/
inductive XF where
  | nan : XF
  | ninf : XF
  | pinf : XF
  | fin : ℚ → XF
deriving DecidableEq, Repr

/-- IEEE-754 addition on the float model (`log_probs.add_`, score accumulation). -/
def XF.add : XF → XF → XF
  | .nan, _ => .nan
  | _, .nan => .nan
  | .ninf, .pinf => .nan
  | .pinf, .ninf => .nan
  | .ninf, _ => .ninf
  | _, .ninf => .ninf
  | .pinf, _ => .pinf
  | _, .pinf => .pinf
  | .fin a, .fin b => .fin (a + b)

/-- `torch.isnan` on the float model. -/
def XF.isNan : XF → Bool
  | .nan => true
  | _ => false

/-- Total comparison used by the model's sorting primitive (`x` less-or-equal
`y`); NaN is treated as the greatest element, matching how `torch.topk`
propagates NaNs into the selected set. -/
def XF.ble : XF → XF → Bool
  | _, .nan => true
  | .nan, _ => false
  | .ninf, _ => true
  | _, .ninf => false
  | _, .pinf => true
  | .pinf, _ => false
  | .fin a, .fin b => a ≤ b

/-- Modelled from the spec: `ChangeStatus` of
`flccpsisrc.psi.psi_datapoint.tree_structures.tree_builder` (module not under
`src/`).  The spec distinguishes the terminal signal (`END_LINE`, "sequence
complete") from the non-terminal "legal but not complete" outcome; the decoder
only ever compares against `END_LINE`, so one non-terminal constructor
suffices. -/
inductive ChangeStatus where
  | END_LINE : ChangeStatus
  | ADDED : ChangeStatus
deriving DecidableEq, Repr

/-- Modelled from the spec (§6 External interfaces): the structural-constraint
collaborator (`TreeBuilder` plus the `LineBreaker` constant, neither under
`src/`).  `possibleIds` is `get_next_possible_ids`, `addId` is the mutating
`add_id` written in explicit state-passing style (`copy()` is value copying in
this model), and `numNewlineNodes` is `LineBreaker.get_num_newline_nodes()`. -/
structure Constraint (σ : Type) where
  possibleIds : σ → List ℕ
  addId : σ → ℕ → σ × ChangeStatus
  numNewlineNodes : ℕ

/-- `Hypothesis` dataclass of `search.py`: generated token ids, the tree
builder handle, the cumulative raw score, and the termination flag. -/
structure Hypothesis (σ : Type) where
  ids : List ℕ
  treeBuilder : σ
  score : XF
  isTerminated : Bool
deriving DecidableEq, Repr

/-- One row of `_preprocess_log_probs` before the log-softmax: position `j`
is overwritten with `-inf` iff `j` is not among the row's
`get_next_possible_ids` (the `_row_mask` write).  The numeral argument is the
index of the head of the remaining row. -/
def maskRow (legal : List ℕ) : List XF → ℕ → List XF
  | [], _ => []
  | x :: xs, j => (if j ∈ legal then x else XF.ninf) :: maskRow legal xs (j + 1)

/-- Largest finite entry of a row, if any (helper for the log-softmax model). -/
def maxFinAux : List XF → Option ℚ
  | [] => none
  | XF.fin a :: xs =>
    some (match maxFinAux xs with
          | none => a
          | some m => max a m)
  | _ :: xs => maxFinAux xs

/-- Modelled from the spec (§4.1 step 2): one row of
`torch.nn.functional.log_softmax` (external torch code).  The NaN/±inf case
structure follows IEEE-754 exactly (`x - logsumexp`): any NaN poisons the
row; a `+inf` entry sends itself to NaN and everything else to `-inf`; a row
with no finite entry (all `-inf`) is all NaN; otherwise `-inf` stays `-inf`
and finite entries are shifted by the row normalizer.  The transcendental
log-sum-exp is represented by the row maximum, which is exact whenever a row
has a single unmasked column; the theorems below use only the case
structure, never the finite magnitudes. -/
def lsmModel (row : List XF) : List XF :=
  if row.any XF.isNan then row.map fun _ => XF.nan
  else if row.any fun x => x = XF.pinf then
    row.map fun x => match x with | XF.pinf => XF.nan | _ => XF.ninf
  else
    match maxFinAux row with
    | none => row.map fun _ => XF.nan
    | some M => row.map fun x => match x with | XF.fin a => XF.fin (a - M) | _ => XF.ninf

/-- Stable insertion (descending) used by the sorting model. -/
def insertByDesc (c : ℕ × XF) : List (ℕ × XF) → List (ℕ × XF)
  | [] => [c]
  | d :: ds => if XF.ble c.2 d.2 then d :: insertByDesc c ds else c :: d :: ds

/-- Stable insertion sort, descending by score. -/
def sortDesc : List (ℕ × XF) → List (ℕ × XF)
  | [] => []
  | c :: cs => insertByDesc c (sortDesc cs)

/-- Pair every entry of a score list with its (flat) index, starting at `i`. -/
def enumXF : List XF → ℕ → List (ℕ × XF)
  | [], _ => []
  | x :: xs, i => (i, x) :: enumXF xs (i + 1)

/-- Modelled from the spec (§4.1 step 4): one admissible realization of
`torch.topk(flat, k, sorted=False)` (external torch code): the `k` largest
entries of the flattened score list, paired with their flat indices.  Since
the source passes `sorted=False`, the return ORDER is unspecified; theorems
that depend on the order quantify over the selection function and only assume
that every returned pair is a genuine (index, value) entry of the input. -/
def sortedTopk (k : ℕ) (flat : List XF) : List (ℕ × XF) :=
  (sortDesc (enumXF flat 0)).take k

/-- The four parallel accumulator lists of `BeamSearch._step`'s candidate
loop, together with the terminated-hypotheses list that
`_save_terminated` appends to during the loop. -/
structure StepAcc (σ : Type) where
  samples : List ℕ
  treeBuilders : List σ
  sortMask : List ℕ
  sampleScores : List XF
  terminated : List (Hypothesis σ)
deriving DecidableEq, Repr

/-- The body of one iteration of `BeamSearch._step`'s candidate loop
(search.py lines 133-143): decode `divmod(ind, vocab_size)`, copy the
parent's tree builder and advance it with the token; on `END_LINE` append a
terminated hypothesis (`_save_terminated`, lines 174-177), otherwise extend
the four parallel lists. -/
def processCand {σ : Type} [Inhabited σ] (C : Constraint σ) (V : ℕ)
    (hyps : List (List ℕ)) (builders : List σ) (ind : ℕ) (score : XF)
    (acc : StepAcc σ) : StepAcc σ :=
  let hypInd := ind / V
  let tokenInd := ind % V
  let tb := builders.getD hypInd default
  let r := C.addId tb tokenInd
  if r.2 = ChangeStatus.END_LINE then
    { acc with
      terminated := acc.terminated ++
        [⟨(hyps.getD hypInd []) ++ [tokenInd], r.1, score, true⟩] }
  else
    { acc with
      samples := acc.samples ++ [tokenInd],
      treeBuilders := acc.treeBuilders ++ [r.1],
      sortMask := acc.sortMask ++ [hypInd],
      sampleScores := acc.sampleScores ++ [score] }

/-- The candidate loop of `BeamSearch._step` (search.py lines 130-145):
for each `(ind, score)` from the top-k: break on NaN, otherwise process the
candidate, and break once `beam_size` continuing samples have been
drafted. -/
def candLoop {σ : Type} [Inhabited σ] (C : Constraint σ) (V beamSize : ℕ)
    (hyps : List (List ℕ)) (builders : List σ) :
    List (ℕ × XF) → StepAcc σ → StepAcc σ
  | [], acc => acc
  | (ind, score) :: rest, acc =>
    if score = XF.nan then acc
    else
      let acc' := processCand C V hyps builders ind score acc
      if acc'.samples.length = beamSize then acc'
      else candLoop C V beamSize hyps builders rest acc'

/-- The `BeamSearch` object state.  `scores`, `hypotheses`, `samples`,
`sortMask` and `rowMaskSize` are `None` until assigned (lazy first-call
state); `rowMaskSize` records the column count the `_row_mask` buffer was
allocated with. -/
structure BeamSearch (σ : Type) where
  vocabSize : ℕ
  beamSize : ℕ
  length : ℕ
  terminatedHypotheses : List (Hypothesis σ)
  scores : Option (List XF)
  hypotheses : Option (List (List ℕ))
  samples : Option (List ℕ)
  sortMask : Option (List ℕ)
  rowMaskSize : Option ℕ
  treeBuilders : List σ
  isInitialized : Bool
deriving DecidableEq, Repr

/-- `BeamSearch.__init__`. -/
def BeamSearch.new {σ : Type} (vocabSize beamSize : ℕ) (treeBuilder : σ) : BeamSearch σ :=
  { vocabSize := vocabSize, beamSize := beamSize, length := 1,
    terminatedHypotheses := [], scores := none, hypotheses := none,
    samples := none, sortMask := none, rowMaskSize := none,
    treeBuilders := [treeBuilder], isInitialized := false }

/-- `BeamSearch.batch_size`: 1 before `_scores` is assigned, else its length. -/
def BeamSearch.batchSize {σ : Type} (bs : BeamSearch σ) : ℕ :=
  match bs.scores with
  | none => 1
  | some s => s.length

/-- `BeamSearch._init_state`: a single zero score, a single empty hypothesis
row, and a `_row_mask` buffer sized by `log_probs.size(1)` (the column count
of the tensor actually supplied, whatever its shape). -/
def BeamSearch.initState {σ : Type} (bs : BeamSearch σ) (logProbs : List (List XF)) :
    BeamSearch σ :=
  { bs with scores := some [XF.fin 0], hypotheses := some [[]],
            rowMaskSize := some (logProbs.headD []).length }

/-- `BeamSearch._step_check`: `log_probs.size() == (batch_size, vocab_size)`
(for the rectangular tensors torch can represent, equivalent to checking the
row count and every row's length). -/
def BeamSearch.stepCheck {σ : Type} (bs : BeamSearch σ) (logProbs : List (List XF)) : Bool :=
  (logProbs.length == bs.batchSize) && logProbs.all fun r => r.length == bs.vocabSize

/-- `BeamSearch.current_hypotheses`: snapshot of the active beam, each entry
tagged not-terminated. -/
def BeamSearch.currentHypotheses {σ : Type} (bs : BeamSearch σ) : List (Hypothesis σ) :=
  ((bs.hypotheses.getD []).zip (bs.treeBuilders.zip (bs.scores.getD []))).map
    fun p => ⟨p.1, p.2.1, p.2.2, false⟩

/-- The masking half of `BeamSearch._preprocess_log_probs` (search.py lines
112-116): each row's illegal columns are overwritten with `-inf`.  In the
source this writes into the caller's tensor in place. -/
def BeamSearch.maskAll {σ : Type} (C : Constraint σ) (bs : BeamSearch σ)
    (logProbs : List (List XF)) : List (List XF) :=
  (bs.treeBuilders.zip logProbs).map fun p => maskRow (C.possibleIds p.1) p.2 0

/-- `log_probs.add_(self._scores.unsqueeze(1))` followed by `torch.flatten`
(search.py lines 120-121): broadcast-add each row's running score, then
flatten row-major. -/
def BeamSearch.addFlat {σ : Type} (bs : BeamSearch σ) (logProbs : List (List XF)) :
    List XF :=
  (((bs.scores.getD []).zip logProbs).map fun p => p.2.map (XF.add · p.1)).flatten

/-- The accumulator produced by the candidate loop of `BeamSearch._step`:
top-`(1 + num_newline_nodes) * beam_size` selection over the flattened
scores, then the per-candidate dispatch starting from empty parallel lists
and the current terminated collection. -/
def BeamSearch.stepAcc {σ : Type} [Inhabited σ] (C : Constraint σ)
    (topk : ℕ → List XF → List (ℕ × XF)) (bs : BeamSearch σ)
    (logProbs : List (List XF)) : StepAcc σ :=
  candLoop C bs.vocabSize bs.beamSize (bs.hypotheses.getD []) bs.treeBuilders
    (topk ((1 + C.numNewlineNodes) * bs.beamSize) (bs.addFlat logProbs))
    ⟨[], [], [], [], bs.terminatedHypotheses⟩

/-- `BeamSearch._step` after the preprocessing (search.py lines 119-157),
parameterized by the top-k selection function `topk` (the source calls
`torch.topk(..., sorted=False)`, whose return order is unspecified).  Either
reports no continuation (`None`; the beam state is untouched apart from the
terminated hypotheses already appended by `_save_terminated` during the
loop) or commits the new beam (`_update_state` plus the length increment;
the beam-underflow `print` is a diagnostic no-op). -/
def BeamSearch.stepInner {σ : Type} [Inhabited σ] (C : Constraint σ)
    (topk : ℕ → List XF → List (ℕ × XF)) (bs : BeamSearch σ)
    (logProbs : List (List XF)) : Option (List ℕ) × BeamSearch σ :=
  let acc := bs.stepAcc C topk logProbs
  if acc.samples.isEmpty then
    (none, { bs with terminatedHypotheses := acc.terminated })
  else
    (some acc.sortMask,
     { bs with
       samples := some acc.samples,
       sortMask := some acc.sortMask,
       scores := some acc.sampleScores,
       treeBuilders := acc.treeBuilders,
       hypotheses := some ((acc.sortMask.zip acc.samples).map
         fun p => ((bs.hypotheses.getD []).getD p.1 []) ++ [p.2]),
       terminatedHypotheses := acc.terminated,
       length := bs.length + 1 })

/-- `BeamSearch.step`, parameterized by the two external torch primitives
(`lsm` = row-wise `log_softmax`, `topk` = `torch.topk(..., sorted=False)`).
Returns the state after the call, the outcome (`Except.error` models the
`assert` of `_step_check` raising; `Except.ok` carries the optional sort
mask), and the final contents of the caller-supplied `log_probs` tensor:
the masking of `_preprocess_log_probs` writes `-inf` into the caller's own
tensor in place, while the log-softmax result is a fresh tensor. -/
def BeamSearch.step {σ : Type} [Inhabited σ] (C : Constraint σ)
    (lsm : List XF → List XF) (topk : ℕ → List XF → List (ℕ × XF))
    (bs : BeamSearch σ) (logProbs : List (List XF)) :
    BeamSearch σ × Except String (Option (List ℕ)) × List (List XF) :=
  let bs1 := if bs.isInitialized then bs
             else { bs.initState logProbs with isInitialized := true }
  if bs1.stepCheck logProbs then
    let res := bs1.stepInner C topk ((bs1.maskAll C logProbs).map lsm)
    (res.2, Except.ok res.1, bs1.maskAll C logProbs)
  else
    (bs1, Except.error "log_probs shape mismatch", logProbs)

/-- Iterated `step` calls (the session loop driven by the caller), keeping
only the decoder state. -/
def BeamSearch.stepsFold {σ : Type} [Inhabited σ] (C : Constraint σ)
    (lsm : List XF → List XF) (topk : ℕ → List XF → List (ℕ × XF)) :
    BeamSearch σ → List (List (List XF)) → BeamSearch σ
  | bs, [] => bs
  | bs, m :: ms => BeamSearch.stepsFold C lsm topk (BeamSearch.step C lsm topk bs m).1 ms

/-- `Hypothesis.get_normalized_score` (search.py lines 18-21):
`exp(score / (((base + len(ids)) / (base + 1)) ** pow))`, over the reals. -/
noncomputable def getNormalizedScore (lenNormBase lenNormPow : ℝ)
    (ids : List ℕ) (score : ℝ) : ℝ :=
  let hypLength : ℝ := ids.length
  let normFactor : ℝ := ((lenNormBase + hypLength) / (lenNormBase + 1)) ^ lenNormPow
  Real.exp (score / normFactor)

/-- `PredictionPostprocessor` of `evaluate_predictions.py` (the two
length-normalization knobs). -/
structure PredictionPostprocessor where
  lenNormBase : ℝ
  lenNormPow : ℝ

/-- `PredictionPostprocessor._normalize_score` (evaluate_predictions.py
lines 23-25): `score / (((base + length) / (base + 1)) ** pow)` — note: no
exponential is applied. -/
noncomputable def PredictionPostprocessor.normalizeScore (p : PredictionPostprocessor)
    (length : ℕ) (score : ℝ) : ℝ :=
  let normFactor : ℝ := ((p.lenNormBase + (length : ℝ)) / (p.lenNormBase + 1)) ^ p.lenNormPow
  score / normFactor

/-- Modelled from the spec (§4.2): the claimed pure ranking function
`normalized_score(raw_score, length, base, pow) =
exp(raw_score / (((base + length) / (base + 1)) ** pow))`, used for the
refinement comparison against the two source functions above. -/
noncomputable def specNormalizedScore (base pow : ℝ) (length : ℕ) (rawScore : ℝ) : ℝ :=
  Real.exp (rawScore / (((base + (length : ℝ)) / (base + 1)) ^ pow))

/-- Decidable equality for `Except` results (needed to evaluate concrete
step outcomes by `decide`). -/
instance {ε α : Type} [DecidableEq ε] [DecidableEq α] : DecidableEq (Except ε α) := fun a b =>
  match a, b with
  | .error e, .error f =>
    if h : e = f then .isTrue (by rw [h])
    else .isFalse (by intro hh; cases hh; exact h rfl)
  | .ok x, .ok y =>
    if h : x = y then .isTrue (by rw [h])
    else .isFalse (by intro hh; cases hh; exact h rfl)
  | .error _, .ok _ => .isFalse (by intro hh; cases hh)
  | .ok _, .error _ => .isFalse (by intro hh; cases hh)

/-- A structural constraint over trivial state that allows the first `n`
tokens and never terminates (used for concrete runs). -/
def allowAll (n : ℕ) : Constraint Unit :=
  ⟨fun _ => List.range n, fun _ _ => ((), ChangeStatus.ADDED), 0⟩

/-- A constraint whose only legal token is `0`, never terminating. -/
def oneLegal : Constraint Unit :=
  ⟨fun _ => [0], fun _ _ => ((), ChangeStatus.ADDED), 0⟩

/-- A constraint whose only legal token is `0` and for which every advance
reports sequence completion. -/
def alwaysTerm : Constraint Unit :=
  ⟨fun _ => [0], fun _ _ => ((), ChangeStatus.END_LINE), 0⟩

/-- A three-token constraint with one newline-node variant, never
terminating. -/
def c6Constraint : Constraint Unit :=
  ⟨fun _ => [0, 1, 2], fun _ _ => ((), ChangeStatus.ADDED), 1⟩

/-- A four-token constraint for which token 3 is always terminal (§8
scenario of the spec). -/
def termOn3 : Constraint Unit :=
  ⟨fun _ => [0, 1, 2, 3],
   fun _ t => ((), if t = 3 then ChangeStatus.END_LINE else ChangeStatus.ADDED), 0⟩

/-- The decoder state right after the lazy first-call state assignment
(`_init_state` with a well-shaped `(1, vocab)` tensor). -/
def readyBS (vocabSize beamSize : ℕ) : BeamSearch Unit :=
  { BeamSearch.new vocabSize beamSize () with
    scores := some [XF.fin 0], hypotheses := some [[]],
    rowMaskSize := some vocabSize, isInitialized := true }

/-!  Helper lemmas about the list plumbing and the float model.  -/

theorem XF.add_nan_left (s : XF) : XF.add XF.nan s = XF.nan := by
  cases s <;> rfl

theorem XF.add_ninf_left (s : XF) :
    XF.add XF.ninf s = XF.ninf ∨ XF.add XF.ninf s = XF.nan := by
  cases s <;> simp [XF.add]

theorem getD_map_of_lt {α β : Type} (f : α → β) (l : List α) (c : ℕ) (d : α) (d' : β)
    (h : c < l.length) : (l.map f).getD c d' = f (l.getD c d) := by
  induction l generalizing c with
  | nil => simp at h
  | cons x xs ih =>
    cases c with
    | zero => rfl
    | succ c => exact ih c (by simpa using h)

theorem zipMap_getD {α β γ : Type} (f : α × β → γ) (a : List α) (b : List β) (r : ℕ)
    (da : α) (db : β) (dc : γ) (ha : r < a.length) (hb : r < b.length) :
    ((a.zip b).map f).getD r dc = f (a.getD r da, b.getD r db) := by
  induction a generalizing b r with
  | nil => simp at ha
  | cons x xs ih =>
    cases b with
    | nil => simp at hb
    | cons y ys =>
      cases r with
      | zero => rfl
      | succ r => exact ih ys r (by simpa using ha) (by simpa using hb)

theorem maskRow_length (legal : List ℕ) (row : List XF) (j : ℕ) :
    (maskRow legal row j).length = row.length := by
  induction row generalizing j with
  | nil => rfl
  | cons x xs ih => simp [maskRow, ih]

theorem maskRow_getD (legal : List ℕ) (row : List XF) (j c : ℕ) (d : XF)
    (h : c < row.length) :
    (maskRow legal row j).getD c d =
      if (j + c) ∈ legal then row.getD c d else XF.ninf := by
  induction row generalizing j c with
  | nil => simp at h
  | cons x xs ih =>
    cases c with
    | zero => simp [maskRow]
    | succ c =>
      have := ih (j + 1) c (by simpa using h)
      simpa [maskRow, Nat.add_assoc, Nat.add_comm 1 c] using this

theorem lsmModel_length (row : List XF) : (lsmModel row).length = row.length := by
  unfold lsmModel
  split
  · simp
  · split
    · simp
    · split <;> simp

theorem lsmModel_ninf (row : List XF) (c : ℕ) (h : c < row.length)
    (he : row.getD c XF.nan = XF.ninf) :
    (lsmModel row).getD c XF.nan = XF.ninf ∨ (lsmModel row).getD c XF.nan = XF.nan := by
  unfold lsmModel
  split
  · right; rw [getD_map_of_lt _ _ _ XF.nan _ h]
  · split
    · left
      rw [getD_map_of_lt _ _ _ XF.nan _ h, he]
    · split
      · right; rw [getD_map_of_lt _ _ _ XF.nan _ h]
      · left
        rw [getD_map_of_lt _ _ _ XF.nan _ h, he]

theorem flatten_length_of_rect {α : Type} (L : List (List α)) (V : ℕ)
    (h : ∀ row ∈ L, row.length = V) : L.flatten.length = L.length * V := by
  induction L with
  | nil => simp
  | cons row rest ih =>
    have hrow : row.length = V := h row (List.mem_cons_self _ _)
    have hrest : ∀ r ∈ rest, r.length = V := fun r hr => h r (List.mem_cons_of_mem _ hr)
    simp [List.flatten, hrow, ih hrest, Nat.succ_mul, Nat.add_comm]

theorem flatten_getD_of_rect {α : Type} (L : List (List α)) (V r c : ℕ) (d : α)
    (h : ∀ row ∈ L, row.length = V) (hr : r < L.length) (hc : c < V) :
    L.flatten.getD (r * V + c) d = (L.getD r []).getD c d := by
  induction L generalizing r with
  | nil => simp at hr
  | cons row rest ih =>
    have hrow : row.length = V := h row (List.mem_cons_self _ _)
    have hrest : ∀ x ∈ rest, x.length = V := fun x hx => h x (List.mem_cons_of_mem _ hx)
    cases r with
    | zero =>
      have hlt : c < row.length := by rw [hrow]; exact hc
      simpa [List.flatten] using List.getD_append row rest.flatten d c hlt
    | succ r =>
      have hge : row.length ≤ (r + 1) * V + c := by
        rw [hrow]
        calc V ≤ (r + 1) * V := Nat.le_mul_of_pos_left V (Nat.succ_pos r)
        _ ≤ (r + 1) * V + c := Nat.le_add_right _ _
      have harith : (r + 1) * V + c - row.length = r * V + c := by
        rw [hrow]; ring_nf; omega
      rw [List.flatten, List.getD_append_right _ _ _ _ hge, harith]
      exact ih r hrest (by simpa using hr)

theorem getD_mem_of_lt {α : Type} (l : List α) (n : ℕ) (d : α) (h : n < l.length) :
    l.getD n d ∈ l := by
  induction l generalizing n with
  | nil => simp at h
  | cons x xs ih =>
    cases n with
    | zero => exact List.mem_cons_self _ _
    | succ n => exact List.mem_cons_of_mem _ (ih n (by simpa using h))

theorem exists_zip_pair {α β : Type} (a : List α) (b : List β)
    (h : a.length = b.length) : ∀ x ∈ a, ∃ y, (x, y) ∈ a.zip b := by
  induction a generalizing b with
  | nil => intro x hx; simp at hx
  | cons z zs ih =>
    cases b with
    | nil => simp at h
    | cons w ws =>
      intro x hx
      rcases List.mem_cons.mp hx with hx | hx
      · exact ⟨w, by simp [hx]⟩
      · obtain ⟨y, hy⟩ := ih ws (by simpa using h) x hx
        exact ⟨y, List.mem_cons_of_mem _ hy⟩

theorem zip_concat {α β : Type} (a : List α) (b : List β) (x : α) (y : β)
    (h : a.length = b.length) :
    (a ++ [x]).zip (b ++ [y]) = a.zip b ++ [(x, y)] := by
  rw [List.zip_append h]; rfl

theorem enumXF_spec (flat : List XF) (j : ℕ) :
    ∀ p ∈ enumXF flat j, j ≤ p.1 ∧ p.1 - j < flat.length ∧
      flat.getD (p.1 - j) XF.nan = p.2 := by
  induction flat generalizing j with
  | nil => intro p hp; simp [enumXF] at hp
  | cons x xs ih =>
    intro p hp
    rcases List.mem_cons.mp hp with hp | hp
    · subst hp; simp
    · obtain ⟨h1, h2, h3⟩ := ih (j + 1) p hp
      refine ⟨by omega, by simp; omega, ?_⟩
      have : p.1 - j = (p.1 - (j + 1)) + 1 := by omega
      rw [this]
      simpa using h3

theorem insertByDesc_mem (c : ℕ × XF) (l : List (ℕ × XF)) :
    ∀ p ∈ insertByDesc c l, p = c ∨ p ∈ l := by
  induction l with
  | nil => intro p hp; simp [insertByDesc] at hp; exact Or.inl hp
  | cons d ds ih =>
    intro p hp
    unfold insertByDesc at hp
    split at hp
    · rcases List.mem_cons.mp hp with hp | hp
      · exact Or.inr (by simp [hp])
      · rcases ih p hp with hp | hp
        · exact Or.inl hp
        · exact Or.inr (List.mem_cons_of_mem _ hp)
    · rcases List.mem_cons.mp hp with hp | hp
      · exact Or.inl hp
      · exact Or.inr hp

theorem sortDesc_mem (l : List (ℕ × XF)) : ∀ p ∈ sortDesc l, p ∈ l := by
  induction l with
  | nil => intro p hp; simp [sortDesc] at hp
  | cons c cs ih =>
    intro p hp
    rcases insertByDesc_mem c (sortDesc cs) p hp with hp | hp
    · simp [hp]
    · exact List.mem_cons_of_mem _ (ih p hp)

/-- The concrete selection model satisfies the only contract `torch.topk`
guarantees with `sorted=False`: every returned pair is a genuine
(index, value) entry of the input list. -/
theorem sortedTopk_valid (k : ℕ) (flat : List XF) :
    ∀ p ∈ sortedTopk k flat, p.1 < flat.length ∧ flat.getD p.1 XF.nan = p.2 := by
  intro p hp
  have hmem : p ∈ sortDesc (enumXF flat 0) := List.mem_of_mem_take hp
  have := enumXF_spec flat 0 p (sortDesc_mem _ p hmem)
  simpa using this

/-!  Lemmas about the candidate loop.  -/

theorem processCand_cases {σ : Type} [Inhabited σ] (C : Constraint σ) (V : ℕ)
    (hyps : List (List ℕ)) (builders : List σ) (ind : ℕ) (score : XF)
    (acc : StepAcc σ) :
    ((C.addId (builders.getD (ind / V) default) (ind % V)).2 = ChangeStatus.END_LINE ∧
      processCand C V hyps builders ind score acc =
        { acc with
          terminated := acc.terminated ++
            [⟨(hyps.getD (ind / V) []) ++ [ind % V],
              (C.addId (builders.getD (ind / V) default) (ind % V)).1, score, true⟩] })
    ∨ ((C.addId (builders.getD (ind / V) default) (ind % V)).2 ≠ ChangeStatus.END_LINE ∧
      processCand C V hyps builders ind score acc =
        { acc with
          samples := acc.samples ++ [ind % V],
          treeBuilders := acc.treeBuilders ++
            [(C.addId (builders.getD (ind / V) default) (ind % V)).1],
          sortMask := acc.sortMask ++ [ind / V],
          sampleScores := acc.sampleScores ++ [score] }) := by
  by_cases h : (C.addId (builders.getD (ind / V) default) (ind % V)).2 = ChangeStatus.END_LINE
  · refine Or.inl ⟨h, ?_⟩
    unfold processCand
    dsimp only
    rw [if_pos h]
  · refine Or.inr ⟨h, ?_⟩
    unfold processCand
    dsimp only
    rw [if_neg h]

theorem candLoop_term_grows {σ : Type} [Inhabited σ] (C : Constraint σ) (V B : ℕ)
    (hyps : List (List ℕ)) (builders : List σ) :
    ∀ (cands : List (ℕ × XF)) (acc : StepAcc σ),
      ∃ tail, (candLoop C V B hyps builders cands acc).terminated =
        acc.terminated ++ tail := by
  intro cands
  induction cands with
  | nil => intro acc; exact ⟨[], by simp [candLoop]⟩
  | cons x rest ih =>
    obtain ⟨ind, score⟩ := x
    intro acc
    by_cases hs : score = XF.nan
    · exact ⟨[], by simp [candLoop, hs]⟩
    · have hacc' : ∃ t0, (processCand C V hyps builders ind score acc).terminated =
          acc.terminated ++ t0 := by
        rcases processCand_cases C V hyps builders ind score acc with ⟨_, he⟩ | ⟨_, he⟩
        · exact ⟨_, by rw [he]⟩
        · exact ⟨[], by rw [he]; simp⟩
      obtain ⟨t0, ht0⟩ := hacc'
      by_cases hfull : (processCand C V hyps builders ind score acc).samples.length = B
      · exact ⟨t0, by simp [candLoop, hs, hfull, ht0]⟩
      · obtain ⟨t1, ht1⟩ := ih (processCand C V hyps builders ind score acc)
        exact ⟨t0 ++ t1, by
          simp only [candLoop, if_neg hs, if_neg hfull]
          rw [ht1, ht0, List.append_assoc]⟩

theorem candLoop_term_mem {σ : Type} [Inhabited σ] (C : Constraint σ) (V B : ℕ)
    (hyps : List (List ℕ)) (builders : List σ) :
    ∀ (cands : List (ℕ × XF)) (acc : StepAcc σ),
      ∀ h ∈ (candLoop C V B hyps builders cands acc).terminated,
        h ∈ acc.terminated ∨
        ∃ i s, (i, s) ∈ cands ∧ s ≠ XF.nan ∧
          (C.addId (builders.getD (i / V) default) (i % V)).2 = ChangeStatus.END_LINE ∧
          h = ⟨(hyps.getD (i / V) []) ++ [i % V],
               (C.addId (builders.getD (i / V) default) (i % V)).1, s, true⟩ := by
  intro cands
  induction cands with
  | nil => intro acc h hh; exact Or.inl (by simpa [candLoop] using hh)
  | cons x rest ih =>
    obtain ⟨ind, score⟩ := x
    intro acc h hh
    by_cases hs : score = XF.nan
    · exact Or.inl (by simpa [candLoop, hs] using hh)
    · have hstep : ∀ h' ∈ (processCand C V hyps builders ind score acc).terminated,
          h' ∈ acc.terminated ∨
          ((C.addId (builders.getD (ind / V) default) (ind % V)).2 = ChangeStatus.END_LINE ∧
           h' = ⟨(hyps.getD (ind / V) []) ++ [ind % V],
                 (C.addId (builders.getD (ind / V) default) (ind % V)).1, score, true⟩) := by
        intro h' hh'
        rcases processCand_cases C V hyps builders ind score acc with ⟨hE, he⟩ | ⟨_, he⟩
        · rw [he] at hh'
          simp only at hh'
          rcases List.mem_append.mp hh' with hh' | hh'
          · exact Or.inl hh'
          · exact Or.inr ⟨hE, by simpa using hh'⟩
        · rw [he] at hh'
          exact Or.inl hh'
      by_cases hfull : (processCand C V hyps builders ind score acc).samples.length = B
      · rw [candLoop, if_neg hs] at hh
        simp only [if_pos hfull] at hh
        rcases hstep h hh with hin | ⟨hE, heq⟩
        · exact Or.inl hin
        · exact Or.inr ⟨ind, score, List.mem_cons_self _ _, hs, hE, heq⟩
      · rw [candLoop, if_neg hs] at hh
        simp only [if_neg hfull] at hh
        rcases ih (processCand C V hyps builders ind score acc) h hh with hin | hex
        · rcases hstep h hin with hin' | ⟨hE, heq⟩
          · exact Or.inl hin'
          · exact Or.inr ⟨ind, score, List.mem_cons_self _ _, hs, hE, heq⟩
        · obtain ⟨i, s, hmem, hsnan, hE, heq⟩ := hex
          exact Or.inr ⟨i, s, List.mem_cons_of_mem _ hmem, hsnan, hE, heq⟩

theorem candLoop_lengths {σ : Type} [Inhabited σ] (C : Constraint σ) (V B : ℕ)
    (hyps : List (List ℕ)) (builders : List σ) :
    ∀ (cands : List (ℕ × XF)) (acc : StepAcc σ),
      acc.sortMask.length = acc.samples.length →
      acc.sampleScores.length = acc.samples.length →
      acc.treeBuilders.length = acc.samples.length →
      (candLoop C V B hyps builders cands acc).sortMask.length =
        (candLoop C V B hyps builders cands acc).samples.length ∧
      (candLoop C V B hyps builders cands acc).sampleScores.length =
        (candLoop C V B hyps builders cands acc).samples.length ∧
      (candLoop C V B hyps builders cands acc).treeBuilders.length =
        (candLoop C V B hyps builders cands acc).samples.length := by
  intro cands
  induction cands with
  | nil => intro acc e1 e2 e3; simpa [candLoop] using ⟨e1, e2, e3⟩
  | cons x rest ih =>
    obtain ⟨ind, score⟩ := x
    intro acc e1 e2 e3
    by_cases hs : score = XF.nan
    · simpa [candLoop, hs] using ⟨e1, e2, e3⟩
    · have hkeep : (processCand C V hyps builders ind score acc).sortMask.length =
            (processCand C V hyps builders ind score acc).samples.length ∧
          (processCand C V hyps builders ind score acc).sampleScores.length =
            (processCand C V hyps builders ind score acc).samples.length ∧
          (processCand C V hyps builders ind score acc).treeBuilders.length =
            (processCand C V hyps builders ind score acc).samples.length := by
        rcases processCand_cases C V hyps builders ind score acc with ⟨_, he⟩ | ⟨_, he⟩
        · rw [he]; exact ⟨e1, e2, e3⟩
        · rw [he]; simp [e1, e2, e3]
      by_cases hfull : (processCand C V hyps builders ind score acc).samples.length = B
      · rw [candLoop, if_neg hs]
        simpa [if_pos hfull] using hkeep
      · rw [candLoop, if_neg hs]
        simp only [if_neg hfull]
        exact ih _ hkeep.1 hkeep.2.1 hkeep.2.2

theorem candLoop_samples_le {σ : Type} [Inhabited σ] (C : Constraint σ) (V B : ℕ)
    (hyps : List (List ℕ)) (builders : List σ) :
    ∀ (cands : List (ℕ × XF)) (acc : StepAcc σ),
      acc.samples.length < B →
      (candLoop C V B hyps builders cands acc).samples.length ≤ B := by
  intro cands
  induction cands with
  | nil => intro acc hlt; simpa [candLoop] using Nat.le_of_lt hlt
  | cons x rest ih =>
    obtain ⟨ind, score⟩ := x
    intro acc hlt
    by_cases hs : score = XF.nan
    · simpa [candLoop, hs] using Nat.le_of_lt hlt
    · have hgrow : (processCand C V hyps builders ind score acc).samples.length ≤
          acc.samples.length + 1 := by
        rcases processCand_cases C V hyps builders ind score acc with ⟨_, he⟩ | ⟨_, he⟩
        · rw [he]; exact Nat.le_succ _
        · rw [he]; simp
      by_cases hfull : (processCand C V hyps builders ind score acc).samples.length = B
      · rw [candLoop, if_neg hs]
        simp [if_pos hfull, hfull]
      · rw [candLoop, if_neg hs]
        simp only [if_neg hfull]
        exact ih _ (by omega)

theorem candLoop_mem_zip {σ : Type} [Inhabited σ] (C : Constraint σ) (V B : ℕ)
    (hyps : List (List ℕ)) (builders : List σ) :
    ∀ (cands : List (ℕ × XF)) (acc : StepAcc σ),
      acc.sortMask.length = acc.samples.length →
      acc.samples.length = acc.sampleScores.length →
      ∀ p ∈ (candLoop C V B hyps builders cands acc).sortMask.zip
            ((candLoop C V B hyps builders cands acc).samples.zip
              (candLoop C V B hyps builders cands acc).sampleScores),
        p ∈ acc.sortMask.zip (acc.samples.zip acc.sampleScores) ∨
        ∃ i, (i, p.2.2) ∈ cands ∧ p.2.2 ≠ XF.nan ∧ p.1 = i / V ∧ p.2.1 = i % V ∧
          (C.addId (builders.getD (i / V) default) (i % V)).2 ≠ ChangeStatus.END_LINE := by
  intro cands
  induction cands with
  | nil => intro acc e1 e2 p hp; exact Or.inl (by simpa [candLoop] using hp)
  | cons x rest ih =>
    obtain ⟨ind, score⟩ := x
    intro acc e1 e2 p hp
    by_cases hs : score = XF.nan
    · exact Or.inl (by simpa [candLoop, hs] using hp)
    · have hzip : ∀ q ∈ (processCand C V hyps builders ind score acc).sortMask.zip
            ((processCand C V hyps builders ind score acc).samples.zip
              (processCand C V hyps builders ind score acc).sampleScores),
          q ∈ acc.sortMask.zip (acc.samples.zip acc.sampleScores) ∨
          (q = (ind / V, ind % V, score) ∧
           (C.addId (builders.getD (ind / V) default) (ind % V)).2 ≠
             ChangeStatus.END_LINE) := by
        intro q hq
        rcases processCand_cases C V hyps builders ind score acc with ⟨_, he⟩ | ⟨hNE, he⟩
        · rw [he] at hq
          exact Or.inl hq
        · rw [he] at hq
          simp only at hq
          have hlen3 : acc.sortMask.length = (acc.samples.zip acc.sampleScores).length := by
            rw [List.length_zip, ← e2, min_self]; exact e1
          rw [zip_concat acc.samples acc.sampleScores _ _ e2,
              zip_concat acc.sortMask (acc.samples.zip acc.sampleScores) _ _ hlen3] at hq
          rcases List.mem_append.mp hq with hq | hq
          · exact Or.inl hq
          · exact Or.inr ⟨by simpa using hq, hNE⟩
      have e1' : (processCand C V hyps builders ind score acc).sortMask.length =
          (processCand C V hyps builders ind score acc).samples.length := by
        rcases processCand_cases C V hyps builders ind score acc with ⟨_, he⟩ | ⟨_, he⟩
        · rw [he]; exact e1
        · rw [he]; simp [e1]
      have e2' : (processCand C V hyps builders ind score acc).samples.length =
          (processCand C V hyps builders ind score acc).sampleScores.length := by
        rcases processCand_cases C V hyps builders ind score acc with ⟨_, he⟩ | ⟨_, he⟩
        · rw [he]; exact e2
        · rw [he]; simp [e2]
      by_cases hfull : (processCand C V hyps builders ind score acc).samples.length = B
      · rw [candLoop, if_neg hs] at hp
        simp only [if_pos hfull] at hp
        rcases hzip p hp with hin | ⟨heq, hNE⟩
        · exact Or.inl hin
        · subst heq
          exact Or.inr ⟨ind, List.mem_cons_self _ _, hs, rfl, rfl, hNE⟩
      · rw [candLoop, if_neg hs] at hp
        simp only [if_neg hfull] at hp
        rcases ih (processCand C V hyps builders ind score acc) e1' e2' p hp with hin | hex
        · rcases hzip p hin with hin' | ⟨heq, hNE⟩
          · exact Or.inl hin'
          · subst heq
            exact Or.inr ⟨ind, List.mem_cons_self _ _, hs, rfl, rfl, hNE⟩
        · obtain ⟨i, hmem, hsnan, hq1, hq2, hNE⟩ := hex
          exact Or.inr ⟨i, List.mem_cons_of_mem _ hmem, hsnan, hq1, hq2, hNE⟩

/-!  Lemmas about `step` and the preprocessing pipeline.  -/

theorem stepCheck_spec {σ : Type} (bs : BeamSearch σ) (m : List (List XF))
    (h : bs.stepCheck m = true) :
    m.length = bs.batchSize ∧ ∀ row ∈ m, row.length = bs.vocabSize := by
  simp only [BeamSearch.stepCheck, Bool.and_eq_true, beq_iff_eq, List.all_eq_true] at h
  exact ⟨h.1, fun row hr => by simpa using h.2 row hr⟩

theorem step_eq_ok {σ : Type} [Inhabited σ] (C : Constraint σ)
    (lsm : List XF → List XF) (topk : ℕ → List XF → List (ℕ × XF))
    (bs : BeamSearch σ) (m : List (List XF))
    (h1 : bs.isInitialized = true) (h2 : bs.stepCheck m = true) :
    BeamSearch.step C lsm topk bs m =
      ((bs.stepInner C topk ((bs.maskAll C m).map lsm)).2,
       Except.ok (bs.stepInner C topk ((bs.maskAll C m).map lsm)).1,
       bs.maskAll C m) := by
  unfold BeamSearch.step
  rw [if_pos h1, if_pos h2]

theorem step_eq_err {σ : Type} [Inhabited σ] (C : Constraint σ)
    (lsm : List XF → List XF) (topk : ℕ → List XF → List (ℕ × XF))
    (bs : BeamSearch σ) (m : List (List XF))
    (h1 : bs.isInitialized = true) (h2 : bs.stepCheck m = false) :
    BeamSearch.step C lsm topk bs m =
      (bs, Except.error "log_probs shape mismatch", m) := by
  unfold BeamSearch.step
  rw [if_pos h1, if_neg (by rw [h2]; exact Bool.false_ne_true)]

theorem stepInner_none {σ : Type} [Inhabited σ] (C : Constraint σ)
    (topk : ℕ → List XF → List (ℕ × XF)) (bs : BeamSearch σ) (lp : List (List XF))
    (h : (bs.stepAcc C topk lp).samples.isEmpty = true) :
    bs.stepInner C topk lp =
      (none, { bs with terminatedHypotheses := (bs.stepAcc C topk lp).terminated }) := by
  unfold BeamSearch.stepInner
  rw [if_pos h]

theorem stepInner_some {σ : Type} [Inhabited σ] (C : Constraint σ)
    (topk : ℕ → List XF → List (ℕ × XF)) (bs : BeamSearch σ) (lp : List (List XF))
    (h : (bs.stepAcc C topk lp).samples.isEmpty = false) :
    bs.stepInner C topk lp =
      (some (bs.stepAcc C topk lp).sortMask,
       { bs with
         samples := some (bs.stepAcc C topk lp).samples,
         sortMask := some (bs.stepAcc C topk lp).sortMask,
         scores := some (bs.stepAcc C topk lp).sampleScores,
         treeBuilders := (bs.stepAcc C topk lp).treeBuilders,
         hypotheses := some (((bs.stepAcc C topk lp).sortMask.zip
             (bs.stepAcc C topk lp).samples).map
           fun p => ((bs.hypotheses.getD []).getD p.1 []) ++ [p.2]),
         terminatedHypotheses := (bs.stepAcc C topk lp).terminated,
         length := bs.length + 1 }) := by
  unfold BeamSearch.stepInner
  rw [if_neg (by rw [h]; exact Bool.false_ne_true)]

theorem maskAll_getD {σ : Type} [Inhabited σ] (C : Constraint σ) (bs : BeamSearch σ)
    (m : List (List XF)) (r : ℕ) (hb : r < bs.treeBuilders.length) (hm : r < m.length) :
    (bs.maskAll C m).getD r [] =
      maskRow (C.possibleIds (bs.treeBuilders.getD r default)) (m.getD r []) 0 := by
  unfold BeamSearch.maskAll
  exact zipMap_getD _ _ _ r default [] [] hb hm

theorem maskAll_length {σ : Type} (C : Constraint σ) (bs : BeamSearch σ)
    (m : List (List XF)) (h : bs.treeBuilders.length = m.length) :
    (bs.maskAll C m).length = m.length := by
  unfold BeamSearch.maskAll
  rw [List.length_map, List.length_zip, h, min_self]

theorem processed_rect {σ : Type} [Inhabited σ] (C : Constraint σ)
    (lsm : List XF → List XF) (bs : BeamSearch σ) (m : List (List XF))
    (hrows : ∀ row ∈ m, row.length = bs.vocabSize)
    (hlsmLen : ∀ row, (lsm row).length = row.length) :
    ∀ row ∈ (bs.maskAll C m).map lsm, row.length = bs.vocabSize := by
  intro row hrow
  obtain ⟨mr, hmr, rfl⟩ := List.mem_map.mp hrow
  obtain ⟨q, hq, rfl⟩ := List.mem_map.mp hmr
  have hq2 : q.2 ∈ m := (List.of_mem_zip hq).2
  rw [hlsmLen, maskRow_length]
  exact hrows q.2 hq2

theorem addFlat_rect {σ : Type} (bs : BeamSearch σ) (lp : List (List XF))
    (V : ℕ) (hrows : ∀ row ∈ lp, row.length = V) :
    ∀ row ∈ ((bs.scores.getD []).zip lp).map fun p => p.2.map (XF.add · p.1),
      row.length = V := by
  intro row hrow
  obtain ⟨q, hq, rfl⟩ := List.mem_map.mp hrow
  rw [List.length_map]
  exact hrows q.2 (List.of_mem_zip hq).2

theorem addFlat_length {σ : Type} (bs : BeamSearch σ) (lp : List (List XF))
    (sc : List XF) (h4 : bs.scores = some sc) (hlen : sc.length = lp.length)
    (V : ℕ) (hrows : ∀ row ∈ lp, row.length = V) :
    (bs.addFlat lp).length = lp.length * V := by
  unfold BeamSearch.addFlat
  rw [flatten_length_of_rect _ V (addFlat_rect bs lp V hrows)]
  rw [List.length_map, List.length_zip, h4]
  simp [hlen]

theorem addFlat_getD {σ : Type} (bs : BeamSearch σ) (lp : List (List XF))
    (sc : List XF) (h4 : bs.scores = some sc) (hlen : sc.length = lp.length)
    (V r c : ℕ) (hrows : ∀ row ∈ lp, row.length = V)
    (hr : r < lp.length) (hc : c < V) :
    (bs.addFlat lp).getD (r * V + c) XF.nan =
      XF.add ((lp.getD r []).getD c XF.nan) (sc.getD r XF.nan) := by
  unfold BeamSearch.addFlat
  have hws : (((bs.scores.getD []).zip lp).map fun p => p.2.map (XF.add · p.1)).length =
      lp.length := by
    rw [List.length_map, List.length_zip, h4]
    simp [hlen]
  rw [flatten_getD_of_rect _ V r c XF.nan (addFlat_rect bs lp V hrows)
        (by rw [hws]; exact hr) hc]
  rw [h4]
  have := zipMap_getD (fun p : XF × List XF => p.2.map (XF.add · p.1)) sc lp r
    XF.nan [] [] (by rw [hlen]; exact hr) hr
  simp only [Option.getD_some] at *
  rw [this]
  exact getD_map_of_lt _ _ c XF.nan XF.nan
    (by rw [hrows (lp.getD r []) (getD_mem_of_lt lp r [] hr)]; exact hc)

/-- Key property behind the masking claim: after masking, log-softmax and
score addition, every flattened entry whose column is illegal for its row is
`-inf` or NaN. -/
theorem flat_illegal_ninf_or_nan {σ : Type} [Inhabited σ] (C : Constraint σ)
    (lsm : List XF → List XF) (bs : BeamSearch σ) (m : List (List XF)) (sc : List XF)
    (h2 : bs.stepCheck m = true) (h3 : bs.treeBuilders.length = m.length)
    (h4 : bs.scores = some sc) (h5 : sc.length = m.length)
    (hV : 0 < bs.vocabSize)
    (hlsmLen : ∀ row, (lsm row).length = row.length)
    (hlsmNinf : ∀ row c, c < row.length → row.getD c XF.nan = XF.ninf →
        (lsm row).getD c XF.nan = XF.ninf ∨ (lsm row).getD c XF.nan = XF.nan)
    (i : ℕ) (hi : i < m.length * bs.vocabSize)
    (hileg : (i % bs.vocabSize) ∉
      C.possibleIds (bs.treeBuilders.getD (i / bs.vocabSize) default)) :
    (bs.addFlat ((bs.maskAll C m).map lsm)).getD i XF.nan = XF.ninf ∨
    (bs.addFlat ((bs.maskAll C m).map lsm)).getD i XF.nan = XF.nan := by
  have hrows := (stepCheck_spec bs m h2).2
  set V := bs.vocabSize with hVdef
  have hr : i / V < m.length := (Nat.div_lt_iff_lt_mul hV).mpr hi
  have hc : i % V < V := Nat.mod_lt _ hV
  have hiofd : V * (i / V) + i % V = i := Nat.div_add_mod i V
  have hieq : (i / V) * V + (i % V) = i := by rw [Nat.mul_comm]; exact hiofd
  have hprect : ∀ row ∈ (bs.maskAll C m).map lsm, row.length = V :=
    processed_rect C lsm bs m hrows hlsmLen
  have hplen : ((bs.maskAll C m).map lsm).length = m.length := by
    rw [List.length_map]; exact maskAll_length C bs m h3
  have hflat : (bs.addFlat ((bs.maskAll C m).map lsm)).getD i XF.nan =
      XF.add ((((bs.maskAll C m).map lsm).getD (i / V) []).getD (i % V) XF.nan)
        (sc.getD (i / V) XF.nan) := by
    have h0 := addFlat_getD bs _ sc h4 (by rw [h5, hplen]) V (i / V) (i % V) hprect
      (by rw [hplen]; exact hr) hc
    rw [hieq] at h0
    exact h0
  have hmaskedrow : ((bs.maskAll C m).map lsm).getD (i / V) [] =
      lsm ((bs.maskAll C m).getD (i / V) []) :=
    getD_map_of_lt lsm _ (i / V) [] [] (by rw [maskAll_length C bs m h3]; exact hr)
  have hmrow : (bs.maskAll C m).getD (i / V) [] =
      maskRow (C.possibleIds (bs.treeBuilders.getD (i / V) default)) (m.getD (i / V) []) 0 :=
    maskAll_getD C bs m (i / V) (by rw [h3]; exact hr) hr
  have hmlen : (m.getD (i / V) []).length = V :=
    hrows _ (getD_mem_of_lt m (i / V) [] hr)
  have hmasked_ninf :
      ((bs.maskAll C m).getD (i / V) []).getD (i % V) XF.nan = XF.ninf := by
    rw [hmrow, maskRow_getD _ _ 0 (i % V) XF.nan (by rw [hmlen]; exact hc)]
    rw [Nat.zero_add]
    exact if_neg hileg
  have hlsmv := hlsmNinf ((bs.maskAll C m).getD (i / V) []) (i % V)
    (by rw [hmrow, maskRow_length, hmlen]; exact hc) hmasked_ninf
  rw [hflat, hmaskedrow]
  rcases hlsmv with hv | hv
  · rw [hv]
    exact XF.add_ninf_left _
  · rw [hv]
    exact Or.inr (XF.add_nan_left _)

/-!  Claim theorems.  -/

/-- C7: NaN handling.  In the candidate scan of `_step`, a candidate with a
NaN score is never advanced, never added to the continuing beam and never
appended to the terminated collection, and it ends consideration of all
further candidates for the step without raising an error: the loop's result
on `xs ++ (j, NaN) :: ys` is exactly its result on `xs` alone. -/
theorem claim_C7_nan_stops_scan {σ : Type} [Inhabited σ] (C : Constraint σ)
    (V B : ℕ) (hyps : List (List ℕ)) (builders : List σ)
    (xs ys : List (ℕ × XF)) (j : ℕ) (acc : StepAcc σ) :
    candLoop C V B hyps builders (xs ++ (j, XF.nan) :: ys) acc =
      candLoop C V B hyps builders xs acc := by
  induction xs generalizing acc with
  | nil => simp [candLoop]
  | cons x rest ih =>
    obtain ⟨ind, score⟩ := x
    by_cases hs : score = XF.nan
    · simp [candLoop, hs]
    · rw [List.cons_append, candLoop, candLoop, if_neg hs, if_neg hs]
      dsimp only
      by_cases hfull :
          (processCand C V hyps builders ind score acc).samples.length = B
      · rw [if_pos hfull, if_pos hfull]
      · rw [if_neg hfull, if_neg hfull]
        exact ih _

/-- C8 (amended): shape-mismatch atomicity holds for every call made to an
already-initialized session: the call fails with the contract-violation
error, the decoder state is returned unchanged, and the caller's tensor is
not touched.  (On the very first call, lazy initialization mutates the
state before the check runs — see the counterexample.) -/
theorem claim_C8_shape_mismatch_atomic {σ : Type} [Inhabited σ] (C : Constraint σ)
    (lsm : List XF → List XF) (topk : ℕ → List XF → List (ℕ × XF))
    (bs : BeamSearch σ) (m : List (List XF))
    (h1 : bs.isInitialized = true) (h2 : bs.stepCheck m = false) :
    BeamSearch.step C lsm topk bs m =
      (bs, Except.error "log_probs shape mismatch", m) :=
  step_eq_err C lsm topk bs m h1 h2

/-- Witness for C8's amended theorem: a concrete initialized vocab-3 session
rejects a `(1, 2)` tensor without changing anything. -/
theorem claim_C8_witness :
    (readyBS 3 2).isInitialized = true ∧
    (readyBS 3 2).stepCheck [[XF.fin 0, XF.fin 0]] = false ∧
    BeamSearch.step (allowAll 3) lsmModel sortedTopk (readyBS 3 2)
        [[XF.fin 0, XF.fin 0]] =
      (readyBS 3 2, Except.error "log_probs shape mismatch",
       [[XF.fin 0, XF.fin 0]]) :=
  ⟨rfl, by decide,
   claim_C8_shape_mismatch_atomic (allowAll 3) lsmModel sortedTopk (readyBS 3 2)
     [[XF.fin 0, XF.fin 0]] rfl (by decide)⟩

/-- C8 counterexample: a malformed FIRST call is rejected, yet it has
already modified decoder state: `_init_state` runs before `_step_check`, so
the session becomes initialized, scores/hypotheses are assigned, and the
`_row_mask` buffer is sized from the malformed tensor's column count (2)
instead of the configured vocabulary size (3). -/
theorem claim_C8_counterexample :
    (BeamSearch.new 3 2 ()).isInitialized = false ∧
    (BeamSearch.new 3 2 ()).rowMaskSize = none ∧
    (BeamSearch.step (allowAll 3) lsmModel sortedTopk (BeamSearch.new 3 2 ())
        [[XF.fin 0, XF.fin 0]]).2.1 = Except.error "log_probs shape mismatch" ∧
    (BeamSearch.step (allowAll 3) lsmModel sortedTopk (BeamSearch.new 3 2 ())
        [[XF.fin 0, XF.fin 0]]).1.isInitialized = true ∧
    (BeamSearch.step (allowAll 3) lsmModel sortedTopk (BeamSearch.new 3 2 ())
        [[XF.fin 0, XF.fin 0]]).1.rowMaskSize = some 2 ∧
    (BeamSearch.step (allowAll 3) lsmModel sortedTopk (BeamSearch.new 3 2 ())
        [[XF.fin 0, XF.fin 0]]).1.scores = some [XF.fin 0] := by
  decide

/-- C6: the dispatch loop consumes candidates in whatever order the
selection returns them, and the source calls `torch.topk` with
`sorted=False`, whose return order is unspecified.  With `beam_size = 1`
and the two top candidates returned in reversed (still contract-valid)
order, the loop keeps the LOWER-scoring continuing candidate (token 1,
score −1) and discards the higher-scoring one (token 0, score 0); under the
descending order the intended highest-scoring candidate is kept instead. -/
theorem claim_C6_unsorted_dispatch :
    [(1, XF.fin (-1)), (0, XF.fin 0)] =
      (sortedTopk 2 [XF.fin 0, XF.fin (-1), XF.ninf]).reverse ∧
    (candLoop c6Constraint 3 1 [[]] [()]
        [(1, XF.fin (-1)), (0, XF.fin 0)] ⟨[], [], [], [], []⟩).samples = [1] ∧
    (candLoop c6Constraint 3 1 [[]] [()]
        [(1, XF.fin (-1)), (0, XF.fin 0)] ⟨[], [], [], [], []⟩).sampleScores =
      [XF.fin (-1)] ∧
    (candLoop c6Constraint 3 1 [[]] [()]
        (sortedTopk 2 [XF.fin 0, XF.fin (-1), XF.ninf])
        ⟨[], [], [], [], []⟩).samples = [0] ∧
    XF.ble (XF.fin (-1)) (XF.fin 0) = true := by
  decide

/-- C5 (amended): when a step produces zero continuing hypotheses, the
decoder reports the explicit no-continuation signal (`None`), but it does
NOT empty the active hypothesis set: `_update_state` is skipped, so the
previous step's active hypotheses, builders and scores are left in place. -/
theorem claim_C5_collapse_keeps_state {σ : Type} [Inhabited σ] (C : Constraint σ)
    (lsm : List XF → List XF) (topk : ℕ → List XF → List (ℕ × XF))
    (bs : BeamSearch σ) (m : List (List XF))
    (h1 : bs.isInitialized = true)
    (h2 : (BeamSearch.step C lsm topk bs m).2.1 = Except.ok none) :
    (BeamSearch.step C lsm topk bs m).1.scores = bs.scores ∧
    (BeamSearch.step C lsm topk bs m).1.hypotheses = bs.hypotheses ∧
    (BeamSearch.step C lsm topk bs m).1.treeBuilders = bs.treeBuilders ∧
    (BeamSearch.step C lsm topk bs m).1.currentHypotheses = bs.currentHypotheses := by
  by_cases hck : bs.stepCheck m = true
  · rw [step_eq_ok C lsm topk bs m h1 hck] at h2 ⊢
    by_cases hemp :
        (bs.stepAcc C topk ((bs.maskAll C m).map lsm)).samples.isEmpty = true
    · rw [stepInner_none C topk bs _ hemp]
      exact ⟨rfl, rfl, rfl, rfl⟩
    · have hemp' :
          (bs.stepAcc C topk ((bs.maskAll C m).map lsm)).samples.isEmpty = false := by
        simpa using hemp
      rw [stepInner_some C topk bs _ hemp'] at h2
      simp at h2
  · have hck' : bs.stepCheck m = false := by simpa using hck
    rw [step_eq_err C lsm topk bs m h1 hck'] at h2
    simp at h2

/-- Witness for C5's amended theorem: a concrete collapsing step (every
candidate terminates) on an initialized vocab-1 session. -/
theorem claim_C5_witness :
    (readyBS 1 1).isInitialized = true ∧
    (BeamSearch.step alwaysTerm lsmModel sortedTopk (readyBS 1 1)
        [[XF.fin 0]]).2.1 = Except.ok none ∧
    ((BeamSearch.step alwaysTerm lsmModel sortedTopk (readyBS 1 1)
        [[XF.fin 0]]).1.scores = (readyBS 1 1).scores ∧
     (BeamSearch.step alwaysTerm lsmModel sortedTopk (readyBS 1 1)
        [[XF.fin 0]]).1.hypotheses = (readyBS 1 1).hypotheses ∧
     (BeamSearch.step alwaysTerm lsmModel sortedTopk (readyBS 1 1)
        [[XF.fin 0]]).1.treeBuilders = (readyBS 1 1).treeBuilders ∧
     (BeamSearch.step alwaysTerm lsmModel sortedTopk (readyBS 1 1)
        [[XF.fin 0]]).1.currentHypotheses = (readyBS 1 1).currentHypotheses) :=
  ⟨rfl, by decide,
   claim_C5_collapse_keeps_state alwaysTerm lsmModel sortedTopk (readyBS 1 1)
     [[XF.fin 0]] rfl (by decide)⟩

/-- C5 counterexample: the same collapsing step returns the no-continuation
signal, yet the active hypothesis set is NOT empty afterwards — the stale
previous beam is still there. -/
theorem claim_C5_counterexample :
    (BeamSearch.step alwaysTerm lsmModel sortedTopk (readyBS 1 1)
        [[XF.fin 0]]).2.1 = Except.ok none ∧
    (BeamSearch.step alwaysTerm lsmModel sortedTopk (readyBS 1 1)
        [[XF.fin 0]]).1.currentHypotheses ≠ [] ∧
    (BeamSearch.step alwaysTerm lsmModel sortedTopk (readyBS 1 1)
        [[XF.fin 0]]).1.hypotheses = some [[]] := by
  decide

/-- C3 counterexample: the evaluation-time post-processor's ranking score
`_normalize_score` does NOT equal the claimed
`exp(raw_score / norm_factor)` formula: at `base = 10`, `pow = 0.7`,
`length = 1`, `raw_score = 0` it returns `0`, while the claimed formula
gives `exp 0 = 1`. -/
theorem claim_C3_counterexample :
    PredictionPostprocessor.normalizeScore ⟨10, 7 / 10⟩ 1 0 = 0 ∧
    specNormalizedScore 10 (7 / 10) 1 0 = 1 ∧ (0 : ℝ) ≠ 1 := by
  refine ⟨?_, ?_, by norm_num⟩
  · unfold PredictionPostprocessor.normalizeScore
    simp
  · unfold specNormalizedScore
    simp

/-- C3 (amended): the decoder's `get_normalized_score` equals the claimed
`exp(raw_score / (((base + length) / (base + 1)) ** pow))`; the evaluator's
`_normalize_score` instead returns `raw_score / norm_factor` WITHOUT the
exponential, i.e. the decoder's value is `exp` of the evaluator's value —
and since `exp` is strictly monotone, the two induce the same ranking. -/
theorem claim_C3_normalized_score_forms (b p s s2 : ℝ) (ids ids2 : List ℕ) :
    getNormalizedScore b p ids s = specNormalizedScore b p ids.length s ∧
    getNormalizedScore b p ids s =
      Real.exp (PredictionPostprocessor.normalizeScore ⟨b, p⟩ ids.length s) ∧
    (PredictionPostprocessor.normalizeScore ⟨b, p⟩ ids.length s <
       PredictionPostprocessor.normalizeScore ⟨b, p⟩ ids2.length s2 ↔
     getNormalizedScore b p ids s < getNormalizedScore b p ids2 s2) := by
  refine ⟨rfl, rfl, ?_⟩
  exact Real.exp_lt_exp.symm

/-- C9 counterexample: with `base = 1 > 0`, `pow = 1 > 0` and fixed negative
`raw_score = -2`, the normalized score at length 3 is STRICTLY GREATER than
at length 1 — the claimed "strictly decreasing in length" fails. -/
theorem claim_C9_counterexample :
    (0 : ℝ) < 1 ∧ (-2 : ℝ) < 0 ∧
    getNormalizedScore 1 1 [0] (-2) < getNormalizedScore 1 1 [0, 0, 0] (-2) := by
  refine ⟨one_pos, by norm_num, ?_⟩
  unfold getNormalizedScore
  dsimp only
  have e1 : ((([0] : List ℕ).length : ℕ) : ℝ) = 1 := by norm_num
  have e3 : ((([0, 0, 0] : List ℕ).length : ℕ) : ℝ) = 3 := by norm_num
  rw [e1, e3]
  have f1 : (((1 : ℝ) + 1) / (1 + 1)) ^ (1 : ℝ) = 1 := by
    rw [show ((1 : ℝ) + 1) / (1 + 1) = 1 by norm_num, Real.one_rpow]
  have f3 : (((1 : ℝ) + 3) / (1 + 1)) ^ (1 : ℝ) = 2 := by
    rw [show ((1 : ℝ) + 3) / (1 + 1) = 2 by norm_num, Real.rpow_one]
  rw [f1, f3]
  apply Real.exp_lt_exp.mpr
  norm_num

/-- C9 (amended): for fixed negative `raw_score`, positive `pow` and
positive `base`, `get_normalized_score` is strictly INCREASING in the
hypothesis length (not decreasing); and at length 1 the normalization
factor is `((base + 1) / (base + 1)) ** pow = 1`, so the normalized score
equals `exp(raw_score)`. -/
theorem claim_C9_monotonicity (base pow s : ℝ) (ids1 ids2 : List ℕ)
    (hb : 0 < base) (hp : 0 < pow) (hs : s < 0)
    (h12 : ids1.length < ids2.length) :
    getNormalizedScore base pow ids1 s < getNormalizedScore base pow ids2 s ∧
    ∀ (ids0 : List ℕ) (s0 : ℝ), ids0.length = 1 →
      getNormalizedScore base pow ids0 s0 = Real.exp s0 := by
  have hb1 : (0 : ℝ) < base + 1 := by linarith
  constructor
  · have hn : ((ids1.length : ℕ) : ℝ) < ((ids2.length : ℕ) : ℝ) := by
      exact_mod_cast h12
    have hn1 : (0 : ℝ) ≤ ((ids1.length : ℕ) : ℝ) := Nat.cast_nonneg _
    have hn2 : (0 : ℝ) ≤ ((ids2.length : ℕ) : ℝ) := Nat.cast_nonneg _
    have hr1 : (0 : ℝ) < (base + ids1.length) / (base + 1) :=
      div_pos (by linarith) hb1
    have hr2 : (0 : ℝ) < (base + ids2.length) / (base + 1) :=
      div_pos (by linarith) hb1
    have hrlt : (base + ids1.length) / (base + 1) <
        (base + ids2.length) / (base + 1) :=
      (div_lt_div_iff_of_pos_right hb1).mpr (by linarith)
    have hflt : ((base + ids1.length) / (base + 1)) ^ pow <
        ((base + ids2.length) / (base + 1)) ^ pow :=
      Real.rpow_lt_rpow (le_of_lt hr1) hrlt hp
    have hf1 : (0 : ℝ) < ((base + ids1.length) / (base + 1)) ^ pow :=
      Real.rpow_pos_of_pos hr1 _
    have hf2 : (0 : ℝ) < ((base + ids2.length) / (base + 1)) ^ pow :=
      Real.rpow_pos_of_pos hr2 _
    unfold getNormalizedScore
    dsimp only
    apply Real.exp_lt_exp.mpr
    rw [div_lt_div_iff₀ hf1 hf2]
    exact mul_lt_mul_of_neg_left hflt hs
  · intro ids0 s0 h0
    unfold getNormalizedScore
    dsimp only
    rw [h0]
    rw [show ((1 : ℕ) : ℝ) = 1 from Nat.cast_one]
    rw [div_self (ne_of_gt hb1), Real.one_rpow, div_one]

/-- Witness for C9's amended theorem at the decoder's default
hyper-parameters `base = 5`, `pow = 0.7`. -/
theorem claim_C9_witness :
    (0 : ℝ) < 5 ∧ (0 : ℝ) < 7 / 10 ∧ (-1 : ℝ) < 0 ∧
    ([0] : List ℕ).length < ([0, 0] : List ℕ).length ∧
    (getNormalizedScore 5 (7 / 10) [0] (-1) <
       getNormalizedScore 5 (7 / 10) [0, 0] (-1) ∧
     ∀ (ids0 : List ℕ) (s0 : ℝ), ids0.length = 1 →
       getNormalizedScore 5 (7 / 10) ids0 s0 = Real.exp s0) :=
  ⟨by norm_num, by norm_num, by norm_num, by decide,
   claim_C9_monotonicity 5 (7 / 10) (-1) [0] [0, 0]
     (by norm_num) (by norm_num) (by norm_num) (by decide)⟩

/-!  `stepAcc`-level consequences of the candidate-loop lemmas.  -/

theorem stepAcc_lengths {σ : Type} [Inhabited σ] (C : Constraint σ)
    (topk : ℕ → List XF → List (ℕ × XF)) (bs : BeamSearch σ) (lp : List (List XF)) :
    (bs.stepAcc C topk lp).sortMask.length = (bs.stepAcc C topk lp).samples.length ∧
    (bs.stepAcc C topk lp).sampleScores.length = (bs.stepAcc C topk lp).samples.length ∧
    (bs.stepAcc C topk lp).treeBuilders.length = (bs.stepAcc C topk lp).samples.length := by
  unfold BeamSearch.stepAcc
  exact candLoop_lengths _ _ _ _ _ _ _ rfl rfl rfl

theorem stepAcc_samples_le {σ : Type} [Inhabited σ] (C : Constraint σ)
    (topk : ℕ → List XF → List (ℕ × XF)) (bs : BeamSearch σ) (lp : List (List XF))
    (hB : 0 < bs.beamSize) :
    (bs.stepAcc C topk lp).samples.length ≤ bs.beamSize := by
  unfold BeamSearch.stepAcc
  exact candLoop_samples_le _ _ _ _ _ _ _ (by simpa using hB)

theorem stepAcc_term_grows {σ : Type} [Inhabited σ] (C : Constraint σ)
    (topk : ℕ → List XF → List (ℕ × XF)) (bs : BeamSearch σ) (lp : List (List XF)) :
    ∃ tail, (bs.stepAcc C topk lp).terminated = bs.terminatedHypotheses ++ tail := by
  unfold BeamSearch.stepAcc
  exact candLoop_term_grows _ _ _ _ _ _ _

theorem stepAcc_zip_mem {σ : Type} [Inhabited σ] (C : Constraint σ)
    (topk : ℕ → List XF → List (ℕ × XF)) (bs : BeamSearch σ) (lp : List (List XF)) :
    ∀ p ∈ (bs.stepAcc C topk lp).sortMask.zip
          ((bs.stepAcc C topk lp).samples.zip (bs.stepAcc C topk lp).sampleScores),
      ∃ i, (i, p.2.2) ∈ topk ((1 + C.numNewlineNodes) * bs.beamSize) (bs.addFlat lp) ∧
        p.2.2 ≠ XF.nan ∧ p.1 = i / bs.vocabSize ∧ p.2.1 = i % bs.vocabSize ∧
        (C.addId (bs.treeBuilders.getD (i / bs.vocabSize) default)
          (i % bs.vocabSize)).2 ≠ ChangeStatus.END_LINE := by
  intro p hp
  unfold BeamSearch.stepAcc at hp
  rcases candLoop_mem_zip _ _ _ _ _ _ _ rfl rfl p hp with hin | hex
  · simp at hin
  · exact hex

theorem stepAcc_term_mem {σ : Type} [Inhabited σ] (C : Constraint σ)
    (topk : ℕ → List XF → List (ℕ × XF)) (bs : BeamSearch σ) (lp : List (List XF)) :
    ∀ h ∈ (bs.stepAcc C topk lp).terminated,
      h ∈ bs.terminatedHypotheses ∨
      ∃ i s, (i, s) ∈ topk ((1 + C.numNewlineNodes) * bs.beamSize) (bs.addFlat lp) ∧
        s ≠ XF.nan ∧
        (C.addId (bs.treeBuilders.getD (i / bs.vocabSize) default)
          (i % bs.vocabSize)).2 = ChangeStatus.END_LINE ∧
        h = ⟨((bs.hypotheses.getD []).getD (i / bs.vocabSize) []) ++ [i % bs.vocabSize],
             (C.addId (bs.treeBuilders.getD (i / bs.vocabSize) default)
               (i % bs.vocabSize)).1, s, true⟩ := by
  intro h hh
  unfold BeamSearch.stepAcc at hh
  exact candLoop_term_mem _ _ _ _ _ _ _ h hh

theorem zip_pair_extend {α β γ : Type} :
    ∀ (a : List α) (b : List β) (c : List γ), b.length = c.length →
      ∀ p ∈ a.zip b, ∃ y, (p.1, p.2, y) ∈ a.zip (b.zip c) := by
  intro a
  induction a with
  | nil => intro b c _ p hp; simp at hp
  | cons x xs ih =>
    intro b c hbc p hp
    cases b with
    | nil => simp at hp
    | cons v vs =>
      cases c with
      | nil => simp at hbc
      | cons w ws =>
        rcases List.mem_cons.mp hp with hp | hp
        · exact ⟨w, by simp [hp]⟩
        · obtain ⟨y, hy⟩ := ih vs ws (by simpa using hbc) p hp
          exact ⟨y, List.mem_cons_of_mem _ hy⟩

theorem step_term_grows_ready {σ : Type} [Inhabited σ] (C : Constraint σ)
    (lsm : List XF → List XF) (topk : ℕ → List XF → List (ℕ × XF))
    (bs : BeamSearch σ) (m : List (List XF)) (h1 : bs.isInitialized = true) :
    ∃ tail, (BeamSearch.step C lsm topk bs m).1.terminatedHypotheses =
      bs.terminatedHypotheses ++ tail := by
  by_cases hck : bs.stepCheck m = true
  · rw [step_eq_ok C lsm topk bs m h1 hck]
    by_cases hemp :
        (bs.stepAcc C topk ((bs.maskAll C m).map lsm)).samples.isEmpty = true
    · rw [stepInner_none C topk bs _ hemp]
      simpa using stepAcc_term_grows C topk bs ((bs.maskAll C m).map lsm)
    · have hemp' :
          (bs.stepAcc C topk ((bs.maskAll C m).map lsm)).samples.isEmpty = false := by
        simpa using hemp
      rw [stepInner_some C topk bs _ hemp']
      simpa using stepAcc_term_grows C topk bs ((bs.maskAll C m).map lsm)
  · rw [step_eq_err C lsm topk bs m h1 (by simpa using hck)]
    exact ⟨[], by simp⟩

theorem step_init_eq {σ : Type} [Inhabited σ] (C : Constraint σ)
    (lsm : List XF → List XF) (topk : ℕ → List XF → List (ℕ × XF))
    (bs : BeamSearch σ) (m : List (List XF)) (h : bs.isInitialized = false) :
    BeamSearch.step C lsm topk bs m =
      BeamSearch.step C lsm topk { bs.initState m with isInitialized := true } m := by
  simp [BeamSearch.step, h]

theorem step_term_grows {σ : Type} [Inhabited σ] (C : Constraint σ)
    (lsm : List XF → List XF) (topk : ℕ → List XF → List (ℕ × XF))
    (bs : BeamSearch σ) (m : List (List XF)) :
    ∃ tail, (BeamSearch.step C lsm topk bs m).1.terminatedHypotheses =
      bs.terminatedHypotheses ++ tail := by
  by_cases hinit : bs.isInitialized = true
  · exact step_term_grows_ready C lsm topk bs m hinit
  · have hinit' : bs.isInitialized = false := by simpa using hinit
    rw [step_init_eq C lsm topk bs m hinit']
    obtain ⟨tail, ht⟩ :=
      step_term_grows_ready C lsm topk
        ({ bs.initState m with isInitialized := true }) m rfl
    exact ⟨tail, by rw [ht]; rfl⟩

theorem stepsFold_term_grows {σ : Type} [Inhabited σ] (C : Constraint σ)
    (lsm : List XF → List XF) (topk : ℕ → List XF → List (ℕ × XF)) :
    ∀ (ms : List (List (List XF))) (bs : BeamSearch σ),
      ∃ tail, (BeamSearch.stepsFold C lsm topk bs ms).terminatedHypotheses =
        bs.terminatedHypotheses ++ tail := by
  intro ms
  induction ms with
  | nil => intro bs; exact ⟨[], by simp [BeamSearch.stepsFold]⟩
  | cons m ms ih =>
    intro bs
    obtain ⟨t1, ht1⟩ := step_term_grows C lsm topk bs m
    obtain ⟨t2, ht2⟩ := ih (BeamSearch.step C lsm topk bs m).1
    refine ⟨t1 ++ t2, ?_⟩
    show (BeamSearch.stepsFold C lsm topk (BeamSearch.step C lsm topk bs m).1 ms).terminatedHypotheses = _
    rw [ht2, ht1, List.append_assoc]

/-- C10: frame effect of `step` on the caller's tensor.  For every step call
that passes the shape check, the caller-supplied log-probability matrix is
mutated in place by the masking: afterwards it equals the masked matrix —
every illegal column of every row has been overwritten with `-inf` while
legal columns are unchanged — and consequently, whenever some illegal entry
was not already `-inf`, the input scores are not preserved across the
call. -/
theorem claim_C10_inplace_masking {σ : Type} [Inhabited σ] (C : Constraint σ)
    (lsm : List XF → List XF) (topk : ℕ → List XF → List (ℕ × XF))
    (bs : BeamSearch σ) (m : List (List XF))
    (h1 : bs.isInitialized = true) (h2 : bs.stepCheck m = true)
    (h3 : bs.treeBuilders.length = m.length) :
    (BeamSearch.step C lsm topk bs m).2.2 = bs.maskAll C m ∧
    (∀ r, r < m.length → ∀ c, c < bs.vocabSize →
      (((BeamSearch.step C lsm topk bs m).2.2).getD r []).getD c XF.nan =
        if c ∈ C.possibleIds (bs.treeBuilders.getD r default) then
          (m.getD r []).getD c XF.nan
        else XF.ninf) ∧
    ((∃ r, r < m.length ∧ ∃ c, c < bs.vocabSize ∧
        c ∉ C.possibleIds (bs.treeBuilders.getD r default) ∧
        (m.getD r []).getD c XF.nan ≠ XF.ninf) →
      (BeamSearch.step C lsm topk bs m).2.2 ≠ m) := by
  have hmask : (BeamSearch.step C lsm topk bs m).2.2 = bs.maskAll C m := by
    rw [step_eq_ok C lsm topk bs m h1 h2]
  have hrows := (stepCheck_spec bs m h2).2
  have hpoint : ∀ r, r < m.length → ∀ c, c < bs.vocabSize →
      ((bs.maskAll C m).getD r []).getD c XF.nan =
        if c ∈ C.possibleIds (bs.treeBuilders.getD r default) then
          (m.getD r []).getD c XF.nan
        else XF.ninf := by
    intro r hr c hc
    rw [maskAll_getD C bs m r (by rw [h3]; exact hr) hr]
    rw [maskRow_getD _ _ 0 c XF.nan
        (by rw [hrows _ (getD_mem_of_lt m r [] hr)]; exact hc)]
    rw [Nat.zero_add]
  refine ⟨hmask, ?_, ?_⟩
  · intro r hr c hc
    rw [hmask]
    exact hpoint r hr c hc
  · rintro ⟨r, hr, c, hc, hleg, hne⟩ heq
    have hv := hpoint r hr c hc
    rw [if_neg hleg] at hv
    rw [hmask] at heq
    rw [heq] at hv
    exact hne hv

/-- Witness for C10: a concrete vocab-2 session with only token 0 legal and
a caller tensor whose illegal column holds a finite value. -/
theorem claim_C10_witness :
    (readyBS 2 1).isInitialized = true ∧
    (readyBS 2 1).stepCheck [[XF.fin 1, XF.fin 2]] = true ∧
    (readyBS 2 1).treeBuilders.length = ([[XF.fin 1, XF.fin 2]] : List (List XF)).length ∧
    ((BeamSearch.step oneLegal lsmModel sortedTopk (readyBS 2 1)
        [[XF.fin 1, XF.fin 2]]).2.2 = (readyBS 2 1).maskAll oneLegal [[XF.fin 1, XF.fin 2]] ∧
     (∀ r, r < ([[XF.fin 1, XF.fin 2]] : List (List XF)).length → ∀ c, c < (readyBS 2 1).vocabSize →
       (((BeamSearch.step oneLegal lsmModel sortedTopk (readyBS 2 1)
           [[XF.fin 1, XF.fin 2]]).2.2).getD r []).getD c XF.nan =
         if c ∈ oneLegal.possibleIds ((readyBS 2 1).treeBuilders.getD r default) then
           (([[XF.fin 1, XF.fin 2]] : List (List XF)).getD r []).getD c XF.nan
         else XF.ninf) ∧
     ((∃ r, r < ([[XF.fin 1, XF.fin 2]] : List (List XF)).length ∧ ∃ c, c < (readyBS 2 1).vocabSize ∧
         c ∉ oneLegal.possibleIds ((readyBS 2 1).treeBuilders.getD r default) ∧
         (([[XF.fin 1, XF.fin 2]] : List (List XF)).getD r []).getD c XF.nan ≠ XF.ninf) →
       (BeamSearch.step oneLegal lsmModel sortedTopk (readyBS 2 1)
           [[XF.fin 1, XF.fin 2]]).2.2 ≠ [[XF.fin 1, XF.fin 2]])) :=
  ⟨rfl, by decide, by decide,
   claim_C10_inplace_masking oneLegal lsmModel sortedTopk (readyBS 2 1)
     [[XF.fin 1, XF.fin 2]] rfl (by decide) (by decide)⟩

/-- C2: sort-mask contract.  For every step that returns a sort mask, the
mask's length equals the new active beam size (the size of the committed
`current_hypotheses` snapshot), that size is at most the configured
`beam_size`, and every value in the mask lies in
`[0, previous active beam size)`.  The selection function is only assumed to
satisfy the `torch.topk` contract (indices into the flattened score list,
values matching). -/
theorem claim_C2_sort_mask_contract {σ : Type} [Inhabited σ] (C : Constraint σ)
    (lsm : List XF → List XF) (topk : ℕ → List XF → List (ℕ × XF))
    (bs : BeamSearch σ) (m : List (List XF)) (sc : List XF)
    (h1 : bs.isInitialized = true) (h2 : bs.stepCheck m = true)
    (h3 : bs.treeBuilders.length = m.length)
    (h4 : bs.scores = some sc) (h5 : sc.length = m.length)
    (hB : 1 ≤ bs.beamSize) (hV : 0 < bs.vocabSize)
    (hlsmLen : ∀ row, (lsm row).length = row.length)
    (htopk : ∀ k flat, ∀ p ∈ topk k flat,
      p.1 < flat.length ∧ flat.getD p.1 XF.nan = p.2) :
    ∀ msk, (BeamSearch.step C lsm topk bs m).2.1 = Except.ok (some msk) →
      msk.length = (BeamSearch.step C lsm topk bs m).1.currentHypotheses.length ∧
      msk.length ≤ bs.beamSize ∧
      ∀ v ∈ msk, v < bs.batchSize := by
  intro msk hmsk
  rw [step_eq_ok C lsm topk bs m h1 h2] at hmsk ⊢
  by_cases hemp :
      (bs.stepAcc C topk ((bs.maskAll C m).map lsm)).samples.isEmpty = true
  · rw [stepInner_none C topk bs _ hemp] at hmsk
    simp at hmsk
  · have hemp' :
        (bs.stepAcc C topk ((bs.maskAll C m).map lsm)).samples.isEmpty = false := by
      simpa using hemp
    rw [stepInner_some C topk bs _ hemp'] at hmsk ⊢
    have hmskeq : (bs.stepAcc C topk ((bs.maskAll C m).map lsm)).sortMask = msk := by
      simpa using hmsk
    subst hmskeq
    obtain ⟨e1, e2, e3⟩ := stepAcc_lengths C topk bs ((bs.maskAll C m).map lsm)
    refine ⟨?_, ?_, ?_⟩
    · unfold BeamSearch.currentHypotheses
      simp [List.length_map, List.length_zip, e1, e2, e3]
    · rw [e1]
      exact stepAcc_samples_le C topk bs _ (by omega)
    · intro v hv
      have hzlen : (bs.stepAcc C topk ((bs.maskAll C m).map lsm)).sortMask.length =
          ((bs.stepAcc C topk ((bs.maskAll C m).map lsm)).samples.zip
            (bs.stepAcc C topk ((bs.maskAll C m).map lsm)).sampleScores).length := by
        rw [List.length_zip, e2, min_self]
        exact e1
      obtain ⟨y, hy⟩ := exists_zip_pair _ _ hzlen v hv
      obtain ⟨i, hmem, _, hveq, _, _⟩ :=
        stepAcc_zip_mem C topk bs ((bs.maskAll C m).map lsm) (v, y) hy
      have hibound := (htopk _ _ _ hmem).1
      have hlplen : ((bs.maskAll C m).map lsm).length = m.length := by
        rw [List.length_map]
        exact maskAll_length C bs m h3
      have hrect : ∀ row ∈ (bs.maskAll C m).map lsm, row.length = bs.vocabSize :=
        processed_rect C lsm bs m (stepCheck_spec bs m h2).2 hlsmLen
      have hflatlen : (bs.addFlat ((bs.maskAll C m).map lsm)).length =
          m.length * bs.vocabSize := by
        rw [addFlat_length bs _ sc h4 (by rw [h5, hlplen]) bs.vocabSize hrect, hlplen]
      rw [hflatlen] at hibound
      have hbatch : bs.batchSize = m.length := by
        simp [BeamSearch.batchSize, h4, h5]
      rw [hbatch]
      simp only at hveq
      rw [hveq]
      exact (Nat.div_lt_iff_lt_mul hV).mpr hibound

/-- Witness for C2 at the spec's §8 scenario: vocab 4, beam 2, all tokens
legal, scores `[-0.1, -2, -0.05, -3]`. -/
theorem claim_C2_witness :
    (readyBS 4 2).isInitialized = true ∧
    (readyBS 4 2).stepCheck
      [[XF.fin (-1/10), XF.fin (-2), XF.fin (-5/100), XF.fin (-3)]] = true ∧
    (readyBS 4 2).treeBuilders.length = 1 ∧
    (readyBS 4 2).scores = some [XF.fin 0] ∧
    1 ≤ (readyBS 4 2).beamSize ∧ 0 < (readyBS 4 2).vocabSize ∧
    (∀ msk, (BeamSearch.step (allowAll 4) lsmModel sortedTopk (readyBS 4 2)
        [[XF.fin (-1/10), XF.fin (-2), XF.fin (-5/100), XF.fin (-3)]]).2.1 =
          Except.ok (some msk) →
      msk.length = (BeamSearch.step (allowAll 4) lsmModel sortedTopk (readyBS 4 2)
        [[XF.fin (-1/10), XF.fin (-2), XF.fin (-5/100), XF.fin (-3)]]).1.currentHypotheses.length ∧
      msk.length ≤ (readyBS 4 2).beamSize ∧
      ∀ v ∈ msk, v < (readyBS 4 2).batchSize) :=
  ⟨rfl, by decide, by decide, rfl, by decide, by decide,
   claim_C2_sort_mask_contract (allowAll 4) lsmModel sortedTopk (readyBS 4 2)
     [[XF.fin (-1/10), XF.fin (-2), XF.fin (-5/100), XF.fin (-3)]] [XF.fin 0]
     rfl (by decide) (by decide) rfl (by decide) (by decide) (by decide)
     lsmModel_length sortedTopk_valid⟩

/-- C4: terminated-hypothesis handling.  (i) A single step only ever appends
to the terminated collection; (ii) across ANY sequence of step calls the
terminated collection only grows (never removed or reordered — the old list
is a prefix); (iii) every newly appended terminated hypothesis comes from a
selected candidate `(i, s)` whose structural advance reported `END_LINE`,
and it carries exactly the parent row's token sequence plus the decoded
token, the advanced builder clone, raw score `s` and `is_terminated = true`;
(iv) no candidate whose advance reports `END_LINE` ever occupies a
continuing beam slot: every committed (row, token) pair has a non-`END_LINE`
advance status. -/
theorem claim_C4_terminated_contract {σ : Type} [Inhabited σ] (C : Constraint σ)
    (lsm : List XF → List XF) (topk : ℕ → List XF → List (ℕ × XF))
    (bs : BeamSearch σ) (m : List (List XF)) (ms : List (List (List XF)))
    (h1 : bs.isInitialized = true) :
    (∃ tail, (BeamSearch.step C lsm topk bs m).1.terminatedHypotheses =
      bs.terminatedHypotheses ++ tail) ∧
    (∃ tail, (BeamSearch.stepsFold C lsm topk bs ms).terminatedHypotheses =
      bs.terminatedHypotheses ++ tail) ∧
    (∀ h ∈ (BeamSearch.step C lsm topk bs m).1.terminatedHypotheses,
      h ∈ bs.terminatedHypotheses ∨
      ∃ i s, (i, s) ∈ topk ((1 + C.numNewlineNodes) * bs.beamSize)
          (bs.addFlat ((bs.maskAll C m).map lsm)) ∧
        s ≠ XF.nan ∧
        (C.addId (bs.treeBuilders.getD (i / bs.vocabSize) default)
          (i % bs.vocabSize)).2 = ChangeStatus.END_LINE ∧
        h = ⟨((bs.hypotheses.getD []).getD (i / bs.vocabSize) []) ++ [i % bs.vocabSize],
             (C.addId (bs.treeBuilders.getD (i / bs.vocabSize) default)
               (i % bs.vocabSize)).1, s, true⟩) ∧
    (∀ msk, (BeamSearch.step C lsm topk bs m).2.1 = Except.ok (some msk) →
      ∀ p ∈ msk.zip ((BeamSearch.step C lsm topk bs m).1.samples.getD []),
        (C.addId (bs.treeBuilders.getD p.1 default) p.2).2 ≠
          ChangeStatus.END_LINE) := by
  refine ⟨step_term_grows C lsm topk bs m, stepsFold_term_grows C lsm topk ms bs, ?_, ?_⟩
  · intro h hh
    by_cases hck : bs.stepCheck m = true
    · rw [step_eq_ok C lsm topk bs m h1 hck] at hh
      by_cases hemp :
          (bs.stepAcc C topk ((bs.maskAll C m).map lsm)).samples.isEmpty = true
      · rw [stepInner_none C topk bs _ hemp] at hh
        exact stepAcc_term_mem C topk bs _ h hh
      · have hemp' :
            (bs.stepAcc C topk ((bs.maskAll C m).map lsm)).samples.isEmpty = false := by
          simpa using hemp
        rw [stepInner_some C topk bs _ hemp'] at hh
        exact stepAcc_term_mem C topk bs _ h hh
    · rw [step_eq_err C lsm topk bs m h1 (by simpa using hck)] at hh
      exact Or.inl hh
  · intro msk hmsk p hp
    by_cases hck : bs.stepCheck m = true
    · rw [step_eq_ok C lsm topk bs m h1 hck] at hmsk hp
      by_cases hemp :
          (bs.stepAcc C topk ((bs.maskAll C m).map lsm)).samples.isEmpty = true
      · rw [stepInner_none C topk bs _ hemp] at hmsk
        simp at hmsk
      · have hemp' :
            (bs.stepAcc C topk ((bs.maskAll C m).map lsm)).samples.isEmpty = false := by
          simpa using hemp
        rw [stepInner_some C topk bs _ hemp'] at hmsk hp
        have hmskeq :
            (bs.stepAcc C topk ((bs.maskAll C m).map lsm)).sortMask = msk := by
          simpa using hmsk
        subst hmskeq
        obtain ⟨e1, e2, e3⟩ := stepAcc_lengths C topk bs ((bs.maskAll C m).map lsm)
        simp only [Option.getD_some] at hp
        obtain ⟨y, hy⟩ :=
          zip_pair_extend (bs.stepAcc C topk ((bs.maskAll C m).map lsm)).sortMask
            (bs.stepAcc C topk ((bs.maskAll C m).map lsm)).samples
            (bs.stepAcc C topk ((bs.maskAll C m).map lsm)).sampleScores
            e2.symm p hp
        obtain ⟨i, _, _, hq1, hq2, hNE⟩ :=
          stepAcc_zip_mem C topk bs ((bs.maskAll C m).map lsm) (p.1, p.2, y) hy
        simp only at hq1 hq2
        rw [hq1, hq2]
        exact hNE
    · rw [step_eq_err C lsm topk bs m h1 (by simpa using hck)] at hmsk
      simp at hmsk

/-- Witness for C4: a concrete step on a vocab-1 session whose only legal
token always terminates, so the step actually appends a terminated
hypothesis (token sequence `[0]`, flagged terminated) while producing no
continuing hypothesis. -/
theorem claim_C4_witness :
    (readyBS 1 1).isInitialized = true ∧
    ((BeamSearch.step alwaysTerm lsmModel sortedTopk (readyBS 1 1)
        [[XF.fin 0]]).1.terminatedHypotheses.map Hypothesis.ids) = [[0]] ∧
    ((BeamSearch.step alwaysTerm lsmModel sortedTopk (readyBS 1 1)
        [[XF.fin 0]]).1.terminatedHypotheses.map Hypothesis.isTerminated) = [true] ∧
    (∃ tail, (BeamSearch.step alwaysTerm lsmModel sortedTopk (readyBS 1 1)
        [[XF.fin 0]]).1.terminatedHypotheses =
      (readyBS 1 1).terminatedHypotheses ++ tail) :=
  ⟨rfl, by decide, by decide,
   (claim_C4_terminated_contract alwaysTerm lsmModel sortedTopk (readyBS 1 1)
     [[XF.fin 0]] [] rfl).1⟩

/-- Every selected candidate whose score is neither NaN nor `-inf` decodes
to an in-range row and a token that is legal for that row's structural
state: the masking pipeline leaves only `-inf`/NaN at illegal columns. -/
theorem topk_candidate_legal {σ : Type} [Inhabited σ] (C : Constraint σ)
    (lsm : List XF → List XF) (topk : ℕ → List XF → List (ℕ × XF))
    (bs : BeamSearch σ) (m : List (List XF)) (sc : List XF)
    (h2 : bs.stepCheck m = true) (h3 : bs.treeBuilders.length = m.length)
    (h4 : bs.scores = some sc) (h5 : sc.length = m.length)
    (hV : 0 < bs.vocabSize)
    (hlsmLen : ∀ row, (lsm row).length = row.length)
    (hlsmNinf : ∀ row c, c < row.length → row.getD c XF.nan = XF.ninf →
        (lsm row).getD c XF.nan = XF.ninf ∨ (lsm row).getD c XF.nan = XF.nan)
    (htopk : ∀ k flat, ∀ p ∈ topk k flat,
      p.1 < flat.length ∧ flat.getD p.1 XF.nan = p.2)
    (i : ℕ) (s : XF)
    (hmem : (i, s) ∈ topk ((1 + C.numNewlineNodes) * bs.beamSize)
      (bs.addFlat ((bs.maskAll C m).map lsm)))
    (hnan : s ≠ XF.nan) (hninf : s ≠ XF.ninf) :
    i / bs.vocabSize < m.length ∧
    (i % bs.vocabSize) ∈ C.possibleIds
      (bs.treeBuilders.getD (i / bs.vocabSize) default) := by
  have hi := (htopk _ _ _ hmem).1
  have hval := (htopk _ _ _ hmem).2
  have hlplen : ((bs.maskAll C m).map lsm).length = m.length := by
    rw [List.length_map]
    exact maskAll_length C bs m h3
  have hrect : ∀ row ∈ (bs.maskAll C m).map lsm, row.length = bs.vocabSize :=
    processed_rect C lsm bs m (stepCheck_spec bs m h2).2 hlsmLen
  have hflatlen : (bs.addFlat ((bs.maskAll C m).map lsm)).length =
      m.length * bs.vocabSize := by
    rw [addFlat_length bs _ sc h4 (by rw [h5, hlplen]) bs.vocabSize hrect, hlplen]
  rw [hflatlen] at hi
  refine ⟨(Nat.div_lt_iff_lt_mul hV).mpr hi, ?_⟩
  by_contra hileg
  rcases flat_illegal_ninf_or_nan C lsm bs m sc h2 h3 h4 h5 hV hlsmLen hlsmNinf
      i hi hileg with hx | hx
  · rw [hval] at hx
    exact hninf hx
  · rw [hval] at hx
    exact hnan hx

/-- C1 (amended): masking correctness up to `-inf`-starved selection.
Illegal columns are set to `-inf` before the log-softmax renormalization
(see `claim_C10_inplace_masking` for that mechanism), so every candidate
that is selected and dispatched with a score other than `-inf` — into the
continuing beam or into the terminated collection — has a token id in its
row's structural-constraint-reported legal set.  (As stated, the claim is
false: when the top-k runs out of legal candidates, `-inf`-scored illegal
candidates pass the NaN check and are dispatched — see the
counterexample.) -/
theorem claim_C1_masking_legality {σ : Type} [Inhabited σ] (C : Constraint σ)
    (lsm : List XF → List XF) (topk : ℕ → List XF → List (ℕ × XF))
    (bs : BeamSearch σ) (m : List (List XF)) (sc : List XF)
    (h1 : bs.isInitialized = true) (h2 : bs.stepCheck m = true)
    (h3 : bs.treeBuilders.length = m.length)
    (h4 : bs.scores = some sc) (h5 : sc.length = m.length)
    (hV : 0 < bs.vocabSize)
    (hlsmLen : ∀ row, (lsm row).length = row.length)
    (hlsmNinf : ∀ row c, c < row.length → row.getD c XF.nan = XF.ninf →
        (lsm row).getD c XF.nan = XF.ninf ∨ (lsm row).getD c XF.nan = XF.nan)
    (htopk : ∀ k flat, ∀ p ∈ topk k flat,
      p.1 < flat.length ∧ flat.getD p.1 XF.nan = p.2) :
    (∀ msk, (BeamSearch.step C lsm topk bs m).2.1 = Except.ok (some msk) →
      ∀ p ∈ msk.zip (((BeamSearch.step C lsm topk bs m).1.samples.getD []).zip
            ((BeamSearch.step C lsm topk bs m).1.scores.getD [])),
        p.2.2 ≠ XF.ninf →
        p.2.1 ∈ C.possibleIds (bs.treeBuilders.getD p.1 default)) ∧
    (∀ h ∈ (BeamSearch.step C lsm topk bs m).1.terminatedHypotheses,
      h ∈ bs.terminatedHypotheses ∨
      (h.score ≠ XF.ninf → ∃ r t, r < m.length ∧
        h.ids = ((bs.hypotheses.getD []).getD r []) ++ [t] ∧
        t ∈ C.possibleIds (bs.treeBuilders.getD r default))) := by
  constructor
  · intro msk hmsk p hp hninf
    rw [step_eq_ok C lsm topk bs m h1 h2] at hmsk hp
    by_cases hemp :
        (bs.stepAcc C topk ((bs.maskAll C m).map lsm)).samples.isEmpty = true
    · rw [stepInner_none C topk bs _ hemp] at hmsk
      simp at hmsk
    · have hemp' :
          (bs.stepAcc C topk ((bs.maskAll C m).map lsm)).samples.isEmpty = false := by
        simpa using hemp
      rw [stepInner_some C topk bs _ hemp'] at hmsk hp
      have hmskeq :
          (bs.stepAcc C topk ((bs.maskAll C m).map lsm)).sortMask = msk := by
        simpa using hmsk
      subst hmskeq
      simp only [Option.getD_some] at hp
      obtain ⟨i, hmem, hnan, h1eq, h2eq, _⟩ :=
        stepAcc_zip_mem C topk bs ((bs.maskAll C m).map lsm) p hp
      have hK := topk_candidate_legal C lsm topk bs m sc h2 h3 h4 h5 hV
        hlsmLen hlsmNinf htopk i p.2.2 hmem hnan hninf
      rw [h1eq, h2eq]
      exact hK.2
  · intro h hh
    rw [step_eq_ok C lsm topk bs m h1 h2] at hh
    have hterm : h ∈ (bs.stepAcc C topk ((bs.maskAll C m).map lsm)).terminated := by
      by_cases hemp :
          (bs.stepAcc C topk ((bs.maskAll C m).map lsm)).samples.isEmpty = true
      · rw [stepInner_none C topk bs _ hemp] at hh
        exact hh
      · have hemp' :
            (bs.stepAcc C topk ((bs.maskAll C m).map lsm)).samples.isEmpty = false := by
          simpa using hemp
        rw [stepInner_some C topk bs _ hemp'] at hh
        exact hh
    rcases stepAcc_term_mem C topk bs _ h hterm with hin | ⟨i, s, hmem, hnan, _, heq⟩
    · exact Or.inl hin
    · right
      subst heq
      intro hscore
      have hK := topk_candidate_legal C lsm topk bs m sc h2 h3 h4 h5 hV
        hlsmLen hlsmNinf htopk i s hmem hnan hscore
      exact ⟨i / bs.vocabSize, i % bs.vocabSize, hK.1, rfl, hK.2⟩

/-- Witness for C1's amended theorem at the spec's §8 scenario (vocab 4,
beam 2, all tokens legal, scores `[-0.1, -2, -0.05, -3]`). -/
theorem claim_C1_witness :
    (readyBS 4 2).isInitialized = true ∧
    (readyBS 4 2).stepCheck
      [[XF.fin (-1/10), XF.fin (-2), XF.fin (-5/100), XF.fin (-3)]] = true ∧
    (readyBS 4 2).treeBuilders.length = 1 ∧
    (readyBS 4 2).scores = some [XF.fin 0] ∧
    0 < (readyBS 4 2).vocabSize ∧
    ((∀ msk, (BeamSearch.step (allowAll 4) lsmModel sortedTopk (readyBS 4 2)
        [[XF.fin (-1/10), XF.fin (-2), XF.fin (-5/100), XF.fin (-3)]]).2.1 =
          Except.ok (some msk) →
      ∀ p ∈ msk.zip ((((BeamSearch.step (allowAll 4) lsmModel sortedTopk (readyBS 4 2)
            [[XF.fin (-1/10), XF.fin (-2), XF.fin (-5/100), XF.fin (-3)]]).1.samples).getD []).zip
            (((BeamSearch.step (allowAll 4) lsmModel sortedTopk (readyBS 4 2)
            [[XF.fin (-1/10), XF.fin (-2), XF.fin (-5/100), XF.fin (-3)]]).1.scores).getD [])),
        p.2.2 ≠ XF.ninf →
        p.2.1 ∈ (allowAll 4).possibleIds ((readyBS 4 2).treeBuilders.getD p.1 default)) ∧
     (∀ h ∈ (BeamSearch.step (allowAll 4) lsmModel sortedTopk (readyBS 4 2)
        [[XF.fin (-1/10), XF.fin (-2), XF.fin (-5/100), XF.fin (-3)]]).1.terminatedHypotheses,
      h ∈ (readyBS 4 2).terminatedHypotheses ∨
      (h.score ≠ XF.ninf → ∃ r t, r < 1 ∧
        h.ids = (((readyBS 4 2).hypotheses.getD []).getD r []) ++ [t] ∧
        t ∈ (allowAll 4).possibleIds ((readyBS 4 2).treeBuilders.getD r default)))) :=
  ⟨rfl, by decide, by decide, rfl, by decide,
   claim_C1_masking_legality (allowAll 4) lsmModel sortedTopk (readyBS 4 2)
     [[XF.fin (-1/10), XF.fin (-2), XF.fin (-5/100), XF.fin (-3)]] [XF.fin 0]
     rfl (by decide) (by decide) rfl (by decide) (by decide)
     lsmModel_length (fun row c hc he => lsmModel_ninf row c hc he) sortedTopk_valid⟩

/-- C1 counterexample: with only token 0 legal in a vocabulary of 4 and a
beam of 2, the second-best candidate in the top-k is an ILLEGAL token with
score `-inf`; it passes the NaN check and is dispatched into the continuing
beam (token 3 in row 1 of the committed hypotheses), violating the claim as
stated. -/
theorem claim_C1_counterexample :
    (BeamSearch.step oneLegal lsmModel sortedTopk (readyBS 4 2)
        [[XF.fin 0, XF.fin 0, XF.fin 0, XF.fin 0]]).2.1 = Except.ok (some [0, 0]) ∧
    (BeamSearch.step oneLegal lsmModel sortedTopk (readyBS 4 2)
        [[XF.fin 0, XF.fin 0, XF.fin 0, XF.fin 0]]).1.samples = some [0, 3] ∧
    (BeamSearch.step oneLegal lsmModel sortedTopk (readyBS 4 2)
        [[XF.fin 0, XF.fin 0, XF.fin 0, XF.fin 0]]).1.hypotheses = some [[0], [3]] ∧
    3 ∉ oneLegal.possibleIds () := by
  decide

end Psi
